import Mathlib

/-!
Shallow embedding of the single-instrument limit order book and matching
engine (sources: include/Types.h, include/Order.h, include/OrderBook.h,
include/ObjectPool.h, src/OrderBook.cpp, src/MatchingEngine.cpp), together
with proofs of the specification claims about it.

Conventions of the embedding:
* `Int` is `Int` (C++ `int64_t`), `Nat` is `Nat` carrying `uint32_t`
  values; the one place where 32-bit wrap-around is observable is the cached
  `PriceLevel::totalQuantity` accumulator, so its updates are taken modulo
  `2 ^ 32` (`u32add` / `u32sub`).  `remaining -= fill` never wraps because the
  fill is clamped by `min`, so plain `Nat` subtraction is exact there.
* `std::map<Int, PriceLevel>` becomes a list of levels sorted by price
  (descending for bids, ascending for asks, as in OrderBook.h), and
  `std::unordered_map<Nat, Order*>` becomes an association list with
  distinct keys; `operator[]` assignment and `erase` are modelled directly.
* Pointer mutation of the incoming and resting orders becomes explicit state
  passing; the object pool is modelled by its observable free-slot count.
* Timestamps are observational only (spec section 9) and are omitted.
-/

namespace Engine

/-- Order side, from Types.h. -/
inductive Side where
  | Buy
  | Sell
deriving DecidableEq, Repr

/-- Order type, from Types.h. -/
inductive OrderType where
  | Limit
  | Market
deriving DecidableEq, Repr

/-- `2 ^ 32`, the modulus of the C++ `uint32_t` quantity arithmetic. -/
def U32 : Nat := 4294967296

/-- `uint32_t` addition (used by `PriceLevel::addOrder`). -/
def u32add (a b : Nat) : Nat := (a + b) % U32

/-- `uint32_t` subtraction (used by `totalQuantity -= ...`). -/
def u32sub (a b : Nat) : Nat := (a + (U32 - b % U32)) % U32

/-- The order record, from Order.h (timestamp and the intrusive
`bookPosition` iterator are not part of the functional state: the iterator
is replaced by removal keyed on the order id). -/
structure Order where
  id : Nat
  side : Side
  type : OrderType
  price : Int
  quantity : Nat
  remaining : Nat
deriving DecidableEq, Repr

/-- `Order::isFilled` from Order.h. -/
def Order.isFilled (o : Order) : Bool := o.remaining == 0

/-- `Order::fill` from Order.h: `filled = min(qty, remaining); remaining -= filled`. -/
def Order.fill (o : Order) (qty : Nat) : Order :=
  { o with remaining := o.remaining - min qty o.remaining }

/-- The trade record, from Trade.h (timestamp omitted). -/
structure Trade where
  buyOrderId : Nat
  sellOrderId : Nat
  price : Int
  quantity : Nat
deriving DecidableEq, Repr

/-- A price level, from OrderBook.h: FIFO queue of resting orders plus the
cached `uint32_t` total of remaining quantities. -/
structure PriceLevel where
  price : Int
  orders : List Order
  totalQuantity : Nat
deriving DecidableEq, Repr

/-- `PriceLevel::addOrder`: append to the tail, add the order's current
remaining to the cached total. -/
def PriceLevel.addOrder (lvl : PriceLevel) (o : Order) : PriceLevel :=
  { lvl with
      orders := lvl.orders ++ [o]
      totalQuantity := u32add lvl.totalQuantity o.remaining }

/-- Remove the first order with the given id from a FIFO queue, returning it.
This models `orders.erase(order->bookPosition)`: the stored iterator singles
out the resting order, which in a well-formed book is the unique queue entry
carrying its id. -/
def removeById (id : Nat) : List Order → Option Order × List Order
  | [] => (none, [])
  | o :: rest =>
    if o.id = id then (some o, rest)
    else
      let r := removeById id rest
      (r.1, o :: r.2)

/-- `PriceLevel::removeOrder`: subtract the order's remaining at the time of
removal from the cached total and unlink it from the queue. -/
def PriceLevel.removeOrder (lvl : PriceLevel) (id : Nat) : PriceLevel :=
  match removeById id lvl.orders with
  | (none, _) => lvl
  | (some o, rest) =>
    { lvl with orders := rest, totalQuantity := u32sub lvl.totalQuantity o.remaining }

/-- `PriceLevel::empty`. -/
def PriceLevel.isEmptyLevel (lvl : PriceLevel) : Bool := lvl.orders.isEmpty

/-- The id lookup `std::unordered_map<Nat, Order*>`, modelled as an
association list from id to the (side, price) data the code reads back
through the stored pointer. -/
abbrev Lookup := List (Nat × Side × Int)

/-- `orderLookup_.find(id)`. -/
def lookupFind (id : Nat) : Lookup → Option (Side × Int)
  | [] => none
  | e :: rest => if e.1 = id then some e.2 else lookupFind id rest

/-- `orderLookup_.erase(id)`: remove the (unique) binding for the key. -/
def lookupErase (id : Nat) : Lookup → Lookup
  | [] => []
  | e :: rest => if e.1 = id then rest else e :: lookupErase id rest

/-- `orderLookup_[id] = order`: assign in place if the key is present,
otherwise add a fresh binding. -/
def lookupAssign (id : Nat) (v : Side × Int) : Lookup → Lookup
  | [] => [(id, v)]
  | e :: rest => if e.1 = id then (id, v) :: rest else e :: lookupAssign id v rest

/-- The two-sided book index, from OrderBook.h.  `bids` is sorted by price
descending (`std::map` with `std::greater`), `asks` ascending. -/
structure OrderBook where
  bids : List PriceLevel
  asks : List PriceLevel
  orderLookup : Lookup
deriving DecidableEq, Repr

/-- The freshly constructed, empty book. -/
def OrderBook.emptyBook : OrderBook := ⟨[], [], []⟩

/-- `OrderBook::addToBids`: find the level with the order's price, creating
it (at its sorted, descending position) if absent, then `PriceLevel::addOrder`. -/
def addToBids (o : Order) : List PriceLevel → List PriceLevel
  | [] => [PriceLevel.addOrder ⟨o.price, [], 0⟩ o]
  | lvl :: rest =>
    if lvl.price = o.price then lvl.addOrder o :: rest
    else if lvl.price < o.price then PriceLevel.addOrder ⟨o.price, [], 0⟩ o :: lvl :: rest
    else lvl :: addToBids o rest

/-- `OrderBook::addToAsks`: as `addToBids`, with ascending order. -/
def addToAsks (o : Order) : List PriceLevel → List PriceLevel
  | [] => [PriceLevel.addOrder ⟨o.price, [], 0⟩ o]
  | lvl :: rest =>
    if lvl.price = o.price then lvl.addOrder o :: rest
    else if o.price < lvl.price then PriceLevel.addOrder ⟨o.price, [], 0⟩ o :: lvl :: rest
    else lvl :: addToAsks o rest

/-- `OrderBook::addOrder`: place the resting order on its side and record the
id binding. -/
def OrderBook.addOrder (b : OrderBook) (o : Order) : OrderBook :=
  match o.side with
  | Side.Buy =>
    { b with
        bids := addToBids o b.bids
        orderLookup := lookupAssign o.id (o.side, o.price) b.orderLookup }
  | Side.Sell =>
    { b with
        asks := addToAsks o b.asks
        orderLookup := lookupAssign o.id (o.side, o.price) b.orderLookup }

/-- The per-side part of `OrderBook::cancelOrder`: find the level at the
stored price, remove the order from it, and erase the level if it became
empty. -/
def cancelInLevels (price : Int) (id : Nat) : List PriceLevel → List PriceLevel
  | [] => []
  | lvl :: rest =>
    if lvl.price = price then
      let lvl2 := lvl.removeOrder id
      if lvl2.isEmptyLevel then rest else lvl2 :: rest
    else lvl :: cancelInLevels price id rest

/-- `OrderBook::cancelOrder`: look the id up; if absent return `false`
unchanged, otherwise remove the order from its side, drop an emptied level,
clear the binding and return `true`. -/
def OrderBook.cancelOrder (b : OrderBook) (id : Nat) : Bool × OrderBook :=
  match lookupFind id b.orderLookup with
  | none => (false, b)
  | some sp =>
    let b2 :=
      match sp.1 with
      | Side.Buy => { b with bids := cancelInLevels sp.2 id b.bids }
      | Side.Sell => { b with asks := cancelInLevels sp.2 id b.asks }
    (true, { b2 with orderLookup := lookupErase id b2.orderLookup })

/-- Result of draining one price level: the mutated incoming order, the
surviving FIFO and cached total, the trades emitted, and the resting orders
that became fully filled. -/
structure FillResult where
  incoming : Order
  orders : List Order
  totalQuantity : Nat
  trades : List Trade
  filledOrders : List Order
deriving Repr

/-- The inner `while` of `OrderBook::matchBuy` / `matchSell` (OrderBook.cpp
lines 91-111 and 134-150): fill against the FIFO front while the level is
non-empty and the incoming order has remaining quantity; trades execute at
the level's price; fully filled resting orders are popped and reported. -/
def fillLoop (isBuy : Bool) (lvlPrice : Int) (inc : Order) (tq : Nat) :
    List Order → FillResult
  | [] => ⟨inc, [], tq, [], []⟩
  | front :: rest =>
    if inc.remaining = 0 then ⟨inc, front :: rest, tq, [], []⟩
    else
      let fillQty := min inc.remaining front.remaining
      let inc2 := inc.fill fillQty
      let front2 := front.fill fillQty
      let tq2 := u32sub tq fillQty
      let t : Trade :=
        if isBuy then ⟨inc.id, front.id, lvlPrice, fillQty⟩
        else ⟨front.id, inc.id, lvlPrice, fillQty⟩
      if front2.isFilled then
        let r := fillLoop isBuy lvlPrice inc2 tq2 rest
        ⟨r.incoming, r.orders, r.totalQuantity, t :: r.trades, front2 :: r.filledOrders⟩
      else
        ⟨inc2, front2 :: rest, tq2, [t], []⟩

/-- Result of the outer match loop over the opposing side's levels. -/
structure LoopResult where
  incoming : Order
  levels : List PriceLevel
  trades : List Trade
  filledOrders : List Order
deriving Repr

/-- The outer `while` of `OrderBook::matchBuy` / `matchSell`: walk the
opposing levels best price first; a limit order stops at the first level
whose price does not cross; a level emptied by the inner loop is erased. -/
def matchLoop (isBuy : Bool) (inc : Order) : List PriceLevel → LoopResult
  | [] => ⟨inc, [], [], []⟩
  | lvl :: rest =>
    if inc.remaining = 0 then ⟨inc, lvl :: rest, [], []⟩
    else if inc.type = OrderType.Limit ∧
        (if isBuy then inc.price < lvl.price else lvl.price < inc.price) then
      ⟨inc, lvl :: rest, [], []⟩
    else
      let f := fillLoop isBuy lvl.price inc lvl.totalQuantity lvl.orders
      if f.orders.isEmpty then
        let r := matchLoop isBuy f.incoming rest
        ⟨r.incoming, r.levels, f.trades ++ r.trades, f.filledOrders ++ r.filledOrders⟩
      else
        ⟨f.incoming, ⟨lvl.price, f.orders, f.totalQuantity⟩ :: rest, f.trades, f.filledOrders⟩

/-- `MatchResult` from OrderBook.h. -/
structure MatchResult where
  trades : List Trade
  filledOrders : List Order
deriving Repr

/-- Erase the bindings of the fully filled resting orders (done inline in
the C++ loop; folding the erasures afterwards yields the same map). -/
def eraseFilled (filled : List Order) (m : Lookup) : Lookup :=
  filled.foldl (fun acc o => lookupErase o.id acc) m

/-- `OrderBook::match`: dispatch on the incoming side, returning the mutated
incoming order, the updated book and the `MatchResult`. -/
def OrderBook.matchOrder (b : OrderBook) (inc : Order) : Order × OrderBook × MatchResult :=
  match inc.side with
  | Side.Buy =>
    let r := matchLoop true inc b.asks
    (r.incoming,
     { b with asks := r.levels, orderLookup := eraseFilled r.filledOrders b.orderLookup },
     ⟨r.trades, r.filledOrders⟩)
  | Side.Sell =>
    let r := matchLoop false inc b.bids
    (r.incoming,
     { b with bids := r.levels, orderLookup := eraseFilled r.filledOrders b.orderLookup },
     ⟨r.trades, r.filledOrders⟩)

/-- `OrderBook::bestBid`. -/
def OrderBook.bestBid (b : OrderBook) : Option Int := b.bids.head?.map PriceLevel.price

/-- `OrderBook::bestAsk`. -/
def OrderBook.bestAsk (b : OrderBook) : Option Int := b.asks.head?.map PriceLevel.price

/-- `OrderBook::spread`. -/
def OrderBook.spread (b : OrderBook) : Option Int :=
  match b.bestBid, b.bestAsk with
  | some bid, some ask => some (ask - bid)
  | _, _ => none

/-- `OrderBook::orderCount` (`orderLookup_.size()`). -/
def OrderBook.orderCount (b : OrderBook) : Nat := b.orderLookup.length

/-- `OrderBook::bidLevelCount`. -/
def OrderBook.bidLevelCount (b : OrderBook) : Nat := b.bids.length

/-- `OrderBook::askLevelCount`. -/
def OrderBook.askLevelCount (b : OrderBook) : Nat := b.asks.length

/-- The pool-based engine facade, from MatchingEngine.h.  The object pool is
represented by its free-slot count (`freeSlots_.size()`); slot contents are
the orders threaded explicitly through the functions. -/
structure MatchingEngine where
  book : OrderBook
  freeSlots : Nat
  tradeCount : Nat
  orderCount : Nat
deriving Repr

/-- A freshly constructed engine with the given pool capacity. -/
def MatchingEngine.init (poolSize : Nat) : MatchingEngine :=
  ⟨OrderBook.emptyBook, poolSize, 0, 0⟩

/-- `MatchingEngine::submitLimit` (MatchingEngine.cpp lines 5-29).
`ObjectPool::acquire` throws "Object pool exhausted" before any state is
touched when no free slot remains; that exception is modelled by the
`Except.error` result paired with the unchanged engine. -/
def MatchingEngine.submitLimit (e : MatchingEngine) (id : Nat) (side : Side)
    (price : Int) (qty : Nat) : Except String (List Trade) × MatchingEngine :=
  if e.freeSlots = 0 then (Except.error "Object pool exhausted", e)
  else
    let order : Order := ⟨id, side, OrderType.Limit, price, qty, qty⟩
    let m := e.book.matchOrder order
    let freeAfterFills := (e.freeSlots - 1) + m.2.2.filledOrders.length
    if m.1.isFilled then
      (Except.ok m.2.2.trades,
       { book := m.2.1
         freeSlots := freeAfterFills + 1
         tradeCount := e.tradeCount + m.2.2.trades.length
         orderCount := e.orderCount + 1 })
    else
      (Except.ok m.2.2.trades,
       { book := m.2.1.addOrder m.1
         freeSlots := freeAfterFills
         tradeCount := e.tradeCount + m.2.2.trades.length
         orderCount := e.orderCount + 1 })

/-- `MatchingEngine::submitMarket` (MatchingEngine.cpp lines 31-49): as
`submitLimit` but with `OrderType::Market`, price 0, and the incoming slot
always released (market orders never rest). -/
def MatchingEngine.submitMarket (e : MatchingEngine) (id : Nat) (side : Side)
    (qty : Nat) : Except String (List Trade) × MatchingEngine :=
  if e.freeSlots = 0 then (Except.error "Object pool exhausted", e)
  else
    let order : Order := ⟨id, side, OrderType.Market, 0, qty, qty⟩
    let m := e.book.matchOrder order
    (Except.ok m.2.2.trades,
     { book := m.2.1
       freeSlots := (e.freeSlots - 1) + m.2.2.filledOrders.length + 1
       tradeCount := e.tradeCount + m.2.2.trades.length
       orderCount := e.orderCount + 1 })

/-- `MatchingEngine::cancel`: delegates to the book.  Note the C++ does not
release the cancelled order's pool slot, so `freeSlots` is unchanged. -/
def MatchingEngine.cancel (e : MatchingEngine) (id : Nat) : Bool × MatchingEngine :=
  let r := e.book.cancelOrder id
  (r.1, { e with book := r.2 })

/-- `MatchingEngine::totalTrades`. -/
def MatchingEngine.totalTrades (e : MatchingEngine) : Nat := e.tradeCount

/-- `MatchingEngine::totalOrders`. -/
def MatchingEngine.totalOrders (e : MatchingEngine) : Nat := e.orderCount

/-- One operation of the external interface. -/
inductive Op where
  | limit (id : Nat) (side : Side) (price : Int) (qty : Nat)
  | market (id : Nat) (side : Side) (qty : Nat)
  | cancel (id : Nat)
deriving DecidableEq, Repr

/-- Apply one operation to the pool-based engine, returning the reply. -/
def MatchingEngine.applyOp (e : MatchingEngine) : Op → Except String (List Trade) × MatchingEngine
  | Op.limit id side price qty => e.submitLimit id side price qty
  | Op.market id side qty => e.submitMarket id side qty
  | Op.cancel id =>
    let r := e.cancel id
    (Except.ok [], r.2)

/-- State after a sequence of operations, starting from a fresh engine with
the default pool of 2,000,000 slots. -/
def run (ops : List Op) : MatchingEngine :=
  ops.foldl (fun e op => (e.applyOp op).2) (MatchingEngine.init 2000000)

/-- Abstract view of a price level as seen by the reference matcher of spec
section 4.4: its price and the FIFO of (id, remaining quantity) pairs. -/
def absLevel (lvl : PriceLevel) : Int × List (Nat × Nat) :=
  (lvl.price, lvl.orders.map fun o => (o.id, o.remaining))

/-- Reference matcher, spec section 4.4 step (c): while the level's FIFO is
non-empty and the aggressor has positive remaining, fill the front resting
order by `min` of the two remainders, emit a trade at the level's price with
the buy and sell ids taken from the correct sides, and pop the front when it
reaches zero.  Returns the aggressor's remaining quantity, the surviving
FIFO, and the trades in FIFO order. -/
def refFIFO (isBuy : Bool) (aggId : Nat) (px : Int) :
    Nat → List (Nat × Nat) → Nat × List (Nat × Nat) × List Trade
  | rem, [] => (rem, [], [])
  | rem, (rid, rq) :: rest =>
    if rem = 0 then (rem, (rid, rq) :: rest, [])
    else
      let q := min rem rq
      let t : Trade := if isBuy then ⟨aggId, rid, px, q⟩ else ⟨rid, aggId, px, q⟩
      if rq - q = 0 then
        let r := refFIFO isBuy aggId px (rem - q) rest
        (r.1, r.2.1, t :: r.2.2)
      else
        (rem - q, (rid, rq - q) :: rest, [t])

/-- Reference matcher, spec section 4.4 steps 1, (a), (b), (d): walk the
opposing levels best price first; a limit aggressor stops at the first level
whose price does not cross (for a buy, level price greater than the buy's
price); a market aggressor has no price barrier; an emptied level is erased
before the next level is inspected. -/
def refWalk (isBuy : Bool) (isLimit : Bool) (aggId : Nat) (aggPx : Int) :
    Nat → List (Int × List (Nat × Nat)) → List Trade
  | _, [] => []
  | rem, (px, fifo) :: rest =>
    if rem = 0 then []
    else if isLimit ∧ (if isBuy then aggPx < px else px < aggPx) then []
    else
      let r := refFIFO isBuy aggId px rem fifo
      if r.2.1.isEmpty then r.2.2 ++ refWalk isBuy isLimit aggId aggPx r.1 rest
      else r.2.2

/-- The full reference trade sequence of spec section 4.4 for an arbitrary
incoming order against the abstracted book. -/
def refTrades (b : OrderBook) (inc : Order) : List Trade :=
  match inc.side with
  | Side.Buy =>
    refWalk true (inc.type == OrderType.Limit) inc.id inc.price inc.remaining
      (b.asks.map absLevel)
  | Side.Sell =>
    refWalk false (inc.type == OrderType.Limit) inc.id inc.price inc.remaining
      (b.bids.map absLevel)

/-- The earlier heap-allocating engine facade (the pre-pool
MatchingEngine.cpp): every order is separately allocated and retained in an
owned vector for the engine's lifetime, so there is no pool state and no
slot recycling; the book logic is the same. -/
structure HeapEngine where
  book : OrderBook
  tradeCount : Nat
  orderCount : Nat
deriving Repr

/-- A freshly constructed heap engine. -/
def HeapEngine.init : HeapEngine := ⟨OrderBook.emptyBook, 0, 0⟩

/-- The earlier `MatchingEngine::submitLimit`: allocate, match, rest the
residual; ownership is pushed into the retained vector (which has no
observable effect and is not represented). -/
def HeapEngine.submitLimit (e : HeapEngine) (id : Nat) (side : Side)
    (price : Int) (qty : Nat) : List Trade × HeapEngine :=
  let order : Order := ⟨id, side, OrderType.Limit, price, qty, qty⟩
  let m := e.book.matchOrder order
  let book2 := if m.1.isFilled then m.2.1 else m.2.1.addOrder m.1
  (m.2.2.trades, ⟨book2, e.tradeCount + m.2.2.trades.length, e.orderCount + 1⟩)

/-- The earlier `MatchingEngine::submitMarket`: match only, never rest. -/
def HeapEngine.submitMarket (e : HeapEngine) (id : Nat) (side : Side)
    (qty : Nat) : List Trade × HeapEngine :=
  let order : Order := ⟨id, side, OrderType.Market, 0, qty, qty⟩
  let m := e.book.matchOrder order
  (m.2.2.trades, ⟨m.2.1, e.tradeCount + m.2.2.trades.length, e.orderCount + 1⟩)

/-- The earlier `MatchingEngine::cancel`: delegate to the book. -/
def HeapEngine.cancel (e : HeapEngine) (id : Nat) : Bool × HeapEngine :=
  let r := e.book.cancelOrder id
  (r.1, { e with book := r.2 })

/-- Apply one operation to the heap-allocating engine. -/
def HeapEngine.applyOp (e : HeapEngine) : Op → List Trade × HeapEngine
  | Op.limit id side price qty => e.submitLimit id side price qty
  | Op.market id side qty => e.submitMarket id side qty
  | Op.cancel id =>
    let r := e.cancel id
    ([], r.2)

/-- State of the heap-allocating engine after a sequence of operations. -/
def heapRun (ops : List Op) : HeapEngine :=
  ops.foldl (fun e op => (e.applyOp op).2) HeapEngine.init

/-- Per-operation trade sequences returned by the pool-based engine (an
exhaustion failure contributes an empty reply). -/
def tracesP : MatchingEngine → List Op → List (List Trade)
  | _, [] => []
  | e, op :: rest =>
    let r := e.applyOp op
    (match r.1 with | Except.ok ts => ts | Except.error _ => []) :: tracesP r.2 rest

/-- Per-operation trade sequences returned by the heap-allocating engine. -/
def tracesH : HeapEngine → List Op → List (List Trade)
  | _, [] => []
  | e, op :: rest =>
    let r := e.applyOp op
    r.1 :: tracesH r.2 rest

/-- Does the operation acquire a pool slot? -/
def Op.needsSlot : Op → Bool
  | Op.limit _ _ _ _ => true
  | Op.market _ _ _ => true
  | Op.cancel _ => false

/-- The pool never runs out of free slots along the given operation
sequence. -/
def noExhaust : MatchingEngine → List Op → Bool
  | _, [] => true
  | e, op :: rest => (!op.needsSlot || e.freeSlots != 0) && noExhaust (e.applyOp op).2 rest

/-- Sum of the remaining quantities of a FIFO queue. -/
def sumRemaining (l : List Order) : Nat := (l.map Order.remaining).sum

/-- Well-formedness of one price level (spec section 3): non-empty FIFO, the
cached `uint32_t` total is the sum of remaining quantities reduced modulo
`2 ^ 32`, and every queued order carries the level's side and price, limit
type, and positive remaining quantity. -/
@[reducible] def LevelInv (side : Side) (lvl : PriceLevel) : Prop :=
  lvl.orders ≠ [] ∧
  lvl.totalQuantity = sumRemaining lvl.orders % U32 ∧
  ∀ o ∈ lvl.orders,
    o.side = side ∧ o.type = OrderType.Limit ∧ o.price = lvl.price ∧ 0 < o.remaining

/-- Bid levels are sorted by strictly descending price. -/
@[reducible] def Descending (ls : List PriceLevel) : Prop :=
  List.Pairwise (fun a b => b.price < a.price) ls

/-- Ask levels are sorted by strictly ascending price. -/
@[reducible] def Ascending (ls : List PriceLevel) : Prop :=
  List.Pairwise (fun a b => a.price < b.price) ls

/-- The structural book invariant: both sides sorted, every level
well-formed, and the book not locked or crossed. -/
@[reducible] def bookInv (b : OrderBook) : Prop :=
  Descending b.bids ∧ Ascending b.asks ∧
  (∀ lvl ∈ b.bids, LevelInv Side.Buy lvl) ∧
  (∀ lvl ∈ b.asks, LevelInv Side.Sell lvl) ∧
  (∀ pb ∈ b.bestBid, ∀ pa ∈ b.bestAsk, pb < pa)

/-- All orders resting in the book index, bids first. -/
@[reducible] def restingOrders (b : OrderBook) : List Order :=
  ((b.bids ++ b.asks).map PriceLevel.orders).flatten

/-- Consistency of the id lookup with the resting set (spec section 3): keys
are unique, resting ids are unique, and the bindings are exactly the
(id, side, price) triples of the resting orders. -/
@[reducible] def lookupInv (b : OrderBook) : Prop :=
  (b.orderLookup.map Prod.fst).Nodup ∧
  ((restingOrders b).map Order.id).Nodup ∧
  (∀ e ∈ b.orderLookup, ∃ o ∈ restingOrders b, o.id = e.1 ∧ o.side = e.2.1 ∧ o.price = e.2.2) ∧
  (∀ o ∈ restingOrders b, (o.id, o.side, o.price) ∈ b.orderLookup)

/-! ### Arithmetic helper lemmas -/

theorem u32add_mod (s q : Nat) : u32add (s % U32) q = (s + q) % U32 := by
  simp only [u32add, U32]
  omega

theorem u32sub_mod (s q : Nat) (h : q ≤ s) : u32sub (s % U32) q = (s - q) % U32 := by
  simp only [u32sub, U32]
  omega

theorem u32_add_sub_cancel (a q : Nat) (h : a < U32) : u32sub (u32add a q) q = a := by
  simp only [u32add, u32sub, U32] at *
  omega

theorem minCases (a b : Nat) : (a ≤ b ∧ min a b = a) ∨ (b ≤ a ∧ min a b = b) := by
  rcases le_total a b with h | h
  · exact Or.inl ⟨h, min_eq_left h⟩
  · exact Or.inr ⟨h, min_eq_right h⟩

theorem fill_remaining_def (o : Order) (q : Nat) :
    (o.fill q).remaining = o.remaining - min q o.remaining := rfl

theorem fill_min_inc (inc front : Order) :
    (inc.fill (min inc.remaining front.remaining)).remaining =
      inc.remaining - min inc.remaining front.remaining := by
  rw [fill_remaining_def, min_eq_left (min_le_left _ _)]

theorem fill_min_front (inc front : Order) :
    (front.fill (min inc.remaining front.remaining)).remaining =
      front.remaining - min inc.remaining front.remaining := by
  rw [fill_remaining_def, min_eq_left (min_le_right _ _)]

theorem isFilled_true_iff (o : Order) : o.isFilled = true ↔ o.remaining = 0 := by
  simp [Order.isFilled]

theorem fill_fields (o : Order) (q : Nat) :
    (o.fill q).id = o.id ∧ (o.fill q).side = o.side ∧ (o.fill q).type = o.type ∧
      (o.fill q).price = o.price ∧ (o.fill q).quantity = o.quantity :=
  ⟨rfl, rfl, rfl, rfl, rfl⟩

/-! ### Lemmas about the inner fill loop -/

theorem fillLoop_inc_fields (isBuy : Bool) (px : Int) (inc : Order) (tq : Nat)
    (os : List Order) :
    (fillLoop isBuy px inc tq os).incoming.id = inc.id ∧
    (fillLoop isBuy px inc tq os).incoming.side = inc.side ∧
    (fillLoop isBuy px inc tq os).incoming.type = inc.type ∧
    (fillLoop isBuy px inc tq os).incoming.price = inc.price ∧
    (fillLoop isBuy px inc tq os).incoming.remaining ≤ inc.remaining := by
  induction os generalizing inc tq with
  | nil => simp [fillLoop]
  | cons front rest ih =>
    simp only [fillLoop]
    by_cases h0 : inc.remaining = 0
    · rw [if_pos h0]
      exact ⟨rfl, rfl, rfl, rfl, le_refl _⟩
    · rw [if_neg h0]
      by_cases hf : (front.fill (min inc.remaining front.remaining)).isFilled
      · rw [if_pos hf]
        obtain ⟨i1, i2, i3, i4, i5⟩ :=
          ih (inc.fill (min inc.remaining front.remaining))
            (u32sub tq (min inc.remaining front.remaining))
        refine ⟨i1, i2, i3, i4, le_trans i5 ?_⟩
        rw [fill_min_inc]
        exact Nat.sub_le _ _
      · rw [if_neg hf]
        refine ⟨rfl, rfl, rfl, rfl, ?_⟩
        show (inc.fill (min inc.remaining front.remaining)).remaining ≤ inc.remaining
        rw [fill_min_inc]
        exact Nat.sub_le _ _

theorem fillLoop_orders (isBuy : Bool) (px : Int) (inc : Order) (tq : Nat)
    (os : List Order) :
    ∀ o ∈ (fillLoop isBuy px inc tq os).orders,
      ∃ o₀ ∈ os, o.id = o₀.id ∧ o.side = o₀.side ∧ o.type = o₀.type ∧
        o.price = o₀.price ∧ o.remaining ≤ o₀.remaining ∧
        (o.remaining = o₀.remaining ∨ 0 < o.remaining) := by
  induction os generalizing inc tq with
  | nil => simp [fillLoop]
  | cons front rest ih =>
    simp only [fillLoop]
    by_cases h0 : inc.remaining = 0
    · rw [if_pos h0]
      intro o ho
      exact ⟨o, ho, rfl, rfl, rfl, rfl, le_refl _, Or.inl rfl⟩
    · rw [if_neg h0]
      by_cases hf : (front.fill (min inc.remaining front.remaining)).isFilled
      · rw [if_pos hf]
        intro o ho
        obtain ⟨o₀, ho₀, h⟩ := ih _ _ o ho
        exact ⟨o₀, List.mem_cons_of_mem _ ho₀, h⟩
      · rw [if_neg hf]
        intro o ho
        simp only [List.mem_cons] at ho
        rcases ho with rfl | ho
        · rw [isFilled_true_iff, fill_min_front] at hf
          refine ⟨front, List.mem_cons_self _ _, rfl, rfl, rfl, rfl, ?_, Or.inr ?_⟩
          · rw [fill_min_front]
            exact Nat.sub_le _ _
          · rw [fill_min_front]
            omega
        · exact ⟨o, List.mem_cons_of_mem _ ho, rfl, rfl, rfl, rfl, le_refl _, Or.inl rfl⟩

theorem fillLoop_tq (isBuy : Bool) (px : Int) (inc : Order) (tq : Nat)
    (os : List Order) (h : tq = sumRemaining os % U32) :
    (fillLoop isBuy px inc tq os).totalQuantity =
      sumRemaining (fillLoop isBuy px inc tq os).orders % U32 := by
  induction os generalizing inc tq with
  | nil => simpa [fillLoop] using h
  | cons front rest ih =>
    have hsum : sumRemaining (front :: rest) = front.remaining + sumRemaining rest := by
      simp [sumRemaining]
    simp only [fillLoop]
    by_cases h0 : inc.remaining = 0
    · rw [if_pos h0]
      exact h
    · rw [if_neg h0]
      have hminr := min_le_right inc.remaining front.remaining
      by_cases hf : (front.fill (min inc.remaining front.remaining)).isFilled
      · rw [if_pos hf]
        apply ih
        rw [isFilled_true_iff, fill_min_front] at hf
        have hq : min inc.remaining front.remaining = front.remaining := by omega
        have hfs : front.remaining ≤ sumRemaining (front :: rest) := by omega
        rw [h, hq, u32sub_mod _ _ hfs]
        congr 1
        omega
      · rw [if_neg hf]
        have hle : min inc.remaining front.remaining ≤ sumRemaining (front :: rest) := by
          omega
        show u32sub tq (min inc.remaining front.remaining) =
          sumRemaining (front.fill (min inc.remaining front.remaining) :: rest) % U32
        have h2 : sumRemaining (front.fill (min inc.remaining front.remaining) :: rest) =
            (front.remaining - min inc.remaining front.remaining) + sumRemaining rest := by
          simp only [sumRemaining, List.map_cons, List.sum_cons, fill_min_front]
        rw [h, u32sub_mod _ _ hle, h2]
        congr 1
        omega

theorem fillLoop_orders_ne (isBuy : Bool) (px : Int) (inc : Order) (tq : Nat)
    (os : List Order) (h : (fillLoop isBuy px inc tq os).orders ≠ []) :
    (fillLoop isBuy px inc tq os).incoming.remaining = 0 := by
  induction os generalizing inc tq with
  | nil => simp [fillLoop] at h
  | cons front rest ih =>
    simp only [fillLoop] at h ⊢
    by_cases h0 : inc.remaining = 0
    · rw [if_pos h0]
      exact h0
    · rw [if_neg h0] at h ⊢
      by_cases hf : (front.fill (min inc.remaining front.remaining)).isFilled
      · rw [if_pos hf] at h ⊢
        exact ih _ _ h
      · rw [if_neg hf]
        rw [isFilled_true_iff, fill_min_front] at hf
        show (inc.fill (min inc.remaining front.remaining)).remaining = 0
        rw [fill_min_inc]
        rcases minCases inc.remaining front.remaining with ⟨h1, h2⟩ | ⟨h1, h2⟩ <;> omega

theorem fillLoop_trades_ne (isBuy : Bool) (px : Int) (inc : Order) (tq : Nat)
    (os : List Order) (hos : os ≠ []) (hrem : inc.remaining ≠ 0) :
    (fillLoop isBuy px inc tq os).trades ≠ [] := by
  cases os with
  | nil => exact absurd rfl hos
  | cons front rest =>
    simp only [fillLoop]
    rw [if_neg hrem]
    by_cases hf : (front.fill (min inc.remaining front.remaining)).isFilled
    · rw [if_pos hf]
      simp
    · rw [if_neg hf]
      simp

/-! ### Lemmas about the outer match loop -/

theorem matchLoop_zero (isBuy : Bool) (inc : Order) (levels : List PriceLevel)
    (h0 : inc.remaining = 0) :
    matchLoop isBuy inc levels = ⟨inc, levels, [], []⟩ := by
  cases levels with
  | nil => rfl
  | cons lvl rest =>
    simp only [matchLoop]
    rw [if_pos h0]

theorem matchLoop_inc_fields (isBuy : Bool) (inc : Order) (levels : List PriceLevel) :
    (matchLoop isBuy inc levels).incoming.id = inc.id ∧
    (matchLoop isBuy inc levels).incoming.side = inc.side ∧
    (matchLoop isBuy inc levels).incoming.type = inc.type ∧
    (matchLoop isBuy inc levels).incoming.price = inc.price ∧
    (matchLoop isBuy inc levels).incoming.remaining ≤ inc.remaining := by
  induction levels generalizing inc with
  | nil => simp [matchLoop]
  | cons lvl rest ih =>
    simp only [matchLoop]
    by_cases h0 : inc.remaining = 0
    · rw [if_pos h0]
      exact ⟨rfl, rfl, rfl, rfl, le_refl _⟩
    · rw [if_neg h0]
      by_cases hbreak : inc.type = OrderType.Limit ∧
          (if isBuy then inc.price < lvl.price else lvl.price < inc.price)
      · rw [if_pos hbreak]
        exact ⟨rfl, rfl, rfl, rfl, le_refl _⟩
      · rw [if_neg hbreak]
        obtain ⟨f1, f2, f3, f4, f5⟩ :=
          fillLoop_inc_fields isBuy lvl.price inc lvl.totalQuantity lvl.orders
        by_cases he : (fillLoop isBuy lvl.price inc lvl.totalQuantity lvl.orders).orders.isEmpty
        · rw [if_pos he]
          obtain ⟨i1, i2, i3, i4, i5⟩ :=
            ih (fillLoop isBuy lvl.price inc lvl.totalQuantity lvl.orders).incoming
          exact ⟨i1.trans f1, i2.trans f2, i3.trans f3, i4.trans f4, le_trans i5 f5⟩
        · rw [if_neg he]
          exact ⟨f1, f2, f3, f4, f5⟩

theorem matchLoop_levels (isBuy : Bool) (side : Side) (inc : Order)
    (levels : List PriceLevel) (h : ∀ lvl ∈ levels, LevelInv side lvl) :
    ∀ lvl ∈ (matchLoop isBuy inc levels).levels, LevelInv side lvl := by
  induction levels generalizing inc with
  | nil => simp [matchLoop]
  | cons lvl rest ih =>
    simp only [matchLoop]
    by_cases h0 : inc.remaining = 0
    · rw [if_pos h0]
      exact h
    · rw [if_neg h0]
      by_cases hbreak : inc.type = OrderType.Limit ∧
          (if isBuy then inc.price < lvl.price else lvl.price < inc.price)
      · rw [if_pos hbreak]
        exact h
      · rw [if_neg hbreak]
        by_cases he : (fillLoop isBuy lvl.price inc lvl.totalQuantity lvl.orders).orders.isEmpty
        · rw [if_pos he]
          exact ih _ (fun l2 hl2 => h l2 (List.mem_cons_of_mem _ hl2))
        · rw [if_neg he]
          intro l hl
          rcases List.mem_cons.mp hl with rfl | hl2
          · obtain ⟨hne, htq, hmem⟩ := h lvl (List.mem_cons_self _ _)
            refine ⟨?_, ?_, ?_⟩
            · simpa [List.isEmpty_iff] using he
            · exact fillLoop_tq isBuy lvl.price inc lvl.totalQuantity lvl.orders htq
            · intro o ho
              obtain ⟨o₀, ho₀, e1, e2, e3, e4, e5, e6⟩ :=
                fillLoop_orders isBuy lvl.price inc lvl.totalQuantity lvl.orders o ho
              obtain ⟨m1, m2, m3, m4⟩ := hmem o₀ ho₀
              refine ⟨e2.trans m1, e3.trans m2, e4.trans m3, ?_⟩
              rcases e6 with e6 | e6
              · omega
              · exact e6
          · exact h l (List.mem_cons_of_mem _ hl2)

theorem matchLoop_prices (isBuy : Bool) (inc : Order) (levels : List PriceLevel) :
    (matchLoop isBuy inc levels).levels.map PriceLevel.price <:+
      levels.map PriceLevel.price := by
  induction levels generalizing inc with
  | nil => simp [matchLoop]
  | cons lvl rest ih =>
    simp only [matchLoop]
    by_cases h0 : inc.remaining = 0
    · rw [if_pos h0]
    · rw [if_neg h0]
      by_cases hbreak : inc.type = OrderType.Limit ∧
          (if isBuy then inc.price < lvl.price else lvl.price < inc.price)
      · rw [if_pos hbreak]
      · rw [if_neg hbreak]
        by_cases he : (fillLoop isBuy lvl.price inc lvl.totalQuantity lvl.orders).orders.isEmpty
        · rw [if_pos he]
          exact (ih _).trans (List.suffix_cons _ _)
        · rw [if_neg he]
          simp

theorem matchLoop_stop (isBuy : Bool) (inc : Order) (levels : List PriceLevel)
    (htype : inc.type = OrderType.Limit)
    (hrem : (matchLoop isBuy inc levels).incoming.remaining ≠ 0) :
    (matchLoop isBuy inc levels).levels = [] ∨
      ∃ hd, (matchLoop isBuy inc levels).levels.head? = some hd ∧
        (if isBuy then inc.price < hd.price else hd.price < inc.price) := by
  induction levels generalizing inc with
  | nil => exact Or.inl (by simp [matchLoop])
  | cons lvl rest ih =>
    simp only [matchLoop] at hrem ⊢
    by_cases h0 : inc.remaining = 0
    · rw [if_pos h0] at hrem
      exact absurd h0 hrem
    · rw [if_neg h0] at hrem ⊢
      by_cases hbreak : inc.type = OrderType.Limit ∧
          (if isBuy then inc.price < lvl.price else lvl.price < inc.price)
      · rw [if_pos hbreak]
        exact Or.inr ⟨lvl, rfl, hbreak.2⟩
      · rw [if_neg hbreak] at hrem ⊢
        obtain ⟨f1, f2, f3, f4, f5⟩ :=
          fillLoop_inc_fields isBuy lvl.price inc lvl.totalQuantity lvl.orders
        by_cases he : (fillLoop isBuy lvl.price inc lvl.totalQuantity lvl.orders).orders.isEmpty
        · rw [if_pos he] at hrem ⊢
          have := ih (fillLoop isBuy lvl.price inc lvl.totalQuantity lvl.orders).incoming
            (f3.trans htype) hrem
          rwa [f4] at this
        · rw [if_neg he] at hrem
          exfalso
          apply hrem
          exact fillLoop_orders_ne isBuy lvl.price inc lvl.totalQuantity lvl.orders
            (by simpa [List.isEmpty_iff] using he)

theorem matchLoop_noTrades (isBuy : Bool) (side : Side) (inc : Order)
    (levels : List PriceLevel) (h : ∀ lvl ∈ levels, LevelInv side lvl)
    (ht : (matchLoop isBuy inc levels).trades = []) :
    matchLoop isBuy inc levels = ⟨inc, levels, [], []⟩ := by
  cases levels with
  | nil => rfl
  | cons lvl rest =>
    simp only [matchLoop] at ht ⊢
    by_cases h0 : inc.remaining = 0
    · rw [if_pos h0]
    · rw [if_neg h0] at ht ⊢
      by_cases hbreak : inc.type = OrderType.Limit ∧
          (if isBuy then inc.price < lvl.price else lvl.price < inc.price)
      · rw [if_pos hbreak]
      · rw [if_neg hbreak] at ht
        exfalso
        have hne : lvl.orders ≠ [] := (h lvl (List.mem_cons_self _ _)).1
        have htr := fillLoop_trades_ne isBuy lvl.price inc lvl.totalQuantity lvl.orders hne h0
        by_cases he : (fillLoop isBuy lvl.price inc lvl.totalQuantity lvl.orders).orders.isEmpty
        · rw [if_pos he] at ht
          have h2 := congrArg List.length ht
          simp at h2
          exact htr h2.1
        · rw [if_neg he] at ht
          exact htr ht

theorem matchLoop_market (isBuy : Bool) (inc : Order) (levels : List PriceLevel)
    (htype : inc.type = OrderType.Market) :
    (matchLoop isBuy inc levels).levels = [] ∨
      (matchLoop isBuy inc levels).incoming.remaining = 0 := by
  induction levels generalizing inc with
  | nil => exact Or.inl (by simp [matchLoop])
  | cons lvl rest ih =>
    simp only [matchLoop]
    by_cases h0 : inc.remaining = 0
    · rw [if_pos h0]
      exact Or.inr h0
    · rw [if_neg h0]
      by_cases hbreak : inc.type = OrderType.Limit ∧
          (if isBuy then inc.price < lvl.price else lvl.price < inc.price)
      · exfalso
        rw [htype] at hbreak
        exact absurd hbreak.1 (by simp)
      · rw [if_neg hbreak]
        obtain ⟨f1, f2, f3, f4, f5⟩ :=
          fillLoop_inc_fields isBuy lvl.price inc lvl.totalQuantity lvl.orders
        by_cases he : (fillLoop isBuy lvl.price inc lvl.totalQuantity lvl.orders).orders.isEmpty
        · rw [if_pos he]
          exact ih _ (f3.trans htype)
        · rw [if_neg he]
          exact Or.inr (fillLoop_orders_ne isBuy lvl.price inc lvl.totalQuantity lvl.orders
            (by simpa [List.isEmpty_iff] using he))

/-! ### Sorted lists and head bounds -/

theorem suffix_head_le (l1 l2 : List Int) (hs : l1 <:+ l2)
    (hsort : List.Pairwise (fun a b => a < b) l2) (p : Int) (hp : l1.head? = some p) :
    ∃ q, l2.head? = some q ∧ q ≤ p := by
  have hpmem : p ∈ l2 := hs.subset (List.mem_of_mem_head? hp)
  cases l2 with
  | nil => simp at hpmem
  | cons q t2 =>
    refine ⟨q, rfl, ?_⟩
    rcases List.mem_cons.mp hpmem with rfl | hmem
    · exact le_refl _
    · exact le_of_lt ((List.pairwise_cons.mp hsort).1 p hmem)

theorem suffix_head_ge (l1 l2 : List Int) (hs : l1 <:+ l2)
    (hsort : List.Pairwise (fun a b => b < a) l2) (p : Int) (hp : l1.head? = some p) :
    ∃ q, l2.head? = some q ∧ p ≤ q := by
  have hpmem : p ∈ l2 := hs.subset (List.mem_of_mem_head? hp)
  cases l2 with
  | nil => simp at hpmem
  | cons q t2 =>
    refine ⟨q, rfl, ?_⟩
    rcases List.mem_cons.mp hpmem with rfl | hmem
    · exact le_refl _
    · exact le_of_lt ((List.pairwise_cons.mp hsort).1 p hmem)

/-! ### Lemmas about resting-order insertion -/

theorem sumRemaining_cons (o : Order) (l : List Order) :
    sumRemaining (o :: l) = o.remaining + sumRemaining l := by
  simp [sumRemaining]

theorem addOrder_price (lvl : PriceLevel) (o : Order) :
    (lvl.addOrder o).price = lvl.price := rfl

theorem levelAdd_inv (side : Side) (lvl : PriceLevel) (o : Order) (h : LevelInv side lvl)
    (ho : o.side = side ∧ o.type = OrderType.Limit ∧ o.price = lvl.price ∧ 0 < o.remaining) :
    LevelInv side (lvl.addOrder o) := by
  obtain ⟨hne, htq, hmem⟩ := h
  refine ⟨by simp [PriceLevel.addOrder], ?_, ?_⟩
  · show u32add lvl.totalQuantity o.remaining = sumRemaining (lvl.orders ++ [o]) % U32
    rw [htq, u32add_mod]
    congr 1
    simp [sumRemaining]
  · intro x hx
    rcases List.mem_append.mp hx with hx | hx
    · obtain ⟨m1, m2, m3, m4⟩ := hmem x hx
      exact ⟨m1, m2, m3, m4⟩
    · simp only [List.mem_singleton] at hx
      subst hx
      exact ⟨ho.1, ho.2.1, ho.2.2.1, ho.2.2.2⟩

theorem levelNew_inv (side : Side) (o : Order)
    (ho : o.side = side ∧ o.type = OrderType.Limit ∧ 0 < o.remaining) :
    LevelInv side (PriceLevel.addOrder ⟨o.price, [], 0⟩ o) := by
  refine ⟨by simp [PriceLevel.addOrder], ?_, ?_⟩
  · show u32add 0 o.remaining = sumRemaining ([] ++ [o]) % U32
    simp [u32add, sumRemaining]
  · intro x hx
    simp only [PriceLevel.addOrder, List.nil_append, List.mem_singleton] at hx
    subst hx
    exact ⟨ho.1, ho.2.1, rfl, ho.2.2⟩

theorem addToBids_mem (o : Order) (ls : List PriceLevel) :
    ∀ x ∈ addToBids o ls,
      x ∈ ls ∨ (∃ y ∈ ls, y.price = o.price ∧ x = y.addOrder o) ∨
        x = PriceLevel.addOrder ⟨o.price, [], 0⟩ o := by
  induction ls with
  | nil =>
    intro x hx
    simp only [addToBids, List.mem_singleton] at hx
    exact Or.inr (Or.inr hx)
  | cons lvl rest ih =>
    intro x hx
    simp only [addToBids] at hx
    by_cases h1 : lvl.price = o.price
    · rw [if_pos h1] at hx
      rcases List.mem_cons.mp hx with rfl | hx2
      · exact Or.inr (Or.inl ⟨lvl, List.mem_cons_self _ _, h1, rfl⟩)
      · exact Or.inl (List.mem_cons_of_mem _ hx2)
    · rw [if_neg h1] at hx
      by_cases h2 : lvl.price < o.price
      · rw [if_pos h2] at hx
        rcases List.mem_cons.mp hx with rfl | hx2
        · exact Or.inr (Or.inr rfl)
        · exact Or.inl hx2
      · rw [if_neg h2] at hx
        rcases List.mem_cons.mp hx with rfl | hx2
        · exact Or.inl (List.mem_cons_self _ _)
        · rcases ih x hx2 with h | h | h
          · exact Or.inl (List.mem_cons_of_mem _ h)
          · obtain ⟨y, hy, hyp, hxy⟩ := h
            exact Or.inr (Or.inl ⟨y, List.mem_cons_of_mem _ hy, hyp, hxy⟩)
          · exact Or.inr (Or.inr h)

theorem addToAsks_mem (o : Order) (ls : List PriceLevel) :
    ∀ x ∈ addToAsks o ls,
      x ∈ ls ∨ (∃ y ∈ ls, y.price = o.price ∧ x = y.addOrder o) ∨
        x = PriceLevel.addOrder ⟨o.price, [], 0⟩ o := by
  induction ls with
  | nil =>
    intro x hx
    simp only [addToAsks, List.mem_singleton] at hx
    exact Or.inr (Or.inr hx)
  | cons lvl rest ih =>
    intro x hx
    simp only [addToAsks] at hx
    by_cases h1 : lvl.price = o.price
    · rw [if_pos h1] at hx
      rcases List.mem_cons.mp hx with rfl | hx2
      · exact Or.inr (Or.inl ⟨lvl, List.mem_cons_self _ _, h1, rfl⟩)
      · exact Or.inl (List.mem_cons_of_mem _ hx2)
    · rw [if_neg h1] at hx
      by_cases h2 : o.price < lvl.price
      · rw [if_pos h2] at hx
        rcases List.mem_cons.mp hx with rfl | hx2
        · exact Or.inr (Or.inr rfl)
        · exact Or.inl hx2
      · rw [if_neg h2] at hx
        rcases List.mem_cons.mp hx with rfl | hx2
        · exact Or.inl (List.mem_cons_self _ _)
        · rcases ih x hx2 with h | h | h
          · exact Or.inl (List.mem_cons_of_mem _ h)
          · obtain ⟨y, hy, hyp, hxy⟩ := h
            exact Or.inr (Or.inl ⟨y, List.mem_cons_of_mem _ hy, hyp, hxy⟩)
          · exact Or.inr (Or.inr h)

theorem addToBids_inv (o : Order) (ls : List PriceLevel)
    (h : ∀ lvl ∈ ls, LevelInv Side.Buy lvl)
    (ho : o.side = Side.Buy ∧ o.type = OrderType.Limit ∧ 0 < o.remaining) :
    ∀ x ∈ addToBids o ls, LevelInv Side.Buy x := by
  intro x hx
  rcases addToBids_mem o ls x hx with h1 | ⟨y, hy, hyp, rfl⟩ | rfl
  · exact h x h1
  · exact levelAdd_inv _ _ _ (h y hy) ⟨ho.1, ho.2.1, hyp.symm, ho.2.2⟩
  · exact levelNew_inv _ _ ho

theorem addToAsks_inv (o : Order) (ls : List PriceLevel)
    (h : ∀ lvl ∈ ls, LevelInv Side.Sell lvl)
    (ho : o.side = Side.Sell ∧ o.type = OrderType.Limit ∧ 0 < o.remaining) :
    ∀ x ∈ addToAsks o ls, LevelInv Side.Sell x := by
  intro x hx
  rcases addToAsks_mem o ls x hx with h1 | ⟨y, hy, hyp, rfl⟩ | rfl
  · exact h x h1
  · exact levelAdd_inv _ _ _ (h y hy) ⟨ho.1, ho.2.1, hyp.symm, ho.2.2⟩
  · exact levelNew_inv _ _ ho

theorem addToBids_sorted (o : Order) (ls : List PriceLevel) (hs : Descending ls) :
    Descending (addToBids o ls) := by
  induction ls with
  | nil => simp [addToBids, Descending]
  | cons lvl rest ih =>
    rw [Descending, List.pairwise_cons] at hs
    obtain ⟨hlt, hrest⟩ := hs
    simp only [addToBids]
    by_cases h1 : lvl.price = o.price
    · rw [if_pos h1, Descending, List.pairwise_cons]
      exact ⟨fun b hb => hlt b hb, hrest⟩
    · rw [if_neg h1]
      by_cases h2 : lvl.price < o.price
      · rw [if_pos h2, Descending, List.pairwise_cons]
        refine ⟨?_, List.pairwise_cons.mpr ⟨hlt, hrest⟩⟩
        intro b hb
        rcases List.mem_cons.mp hb with rfl | hb2
        · exact h2
        · exact lt_trans (hlt b hb2) h2
      · rw [if_neg h2, Descending, List.pairwise_cons]
        refine ⟨?_, ih hrest⟩
        intro b hb
        have hop : o.price < lvl.price :=
          lt_of_le_of_ne (not_lt.mp h2) (fun e => h1 e.symm)
        rcases addToBids_mem o rest b hb with h3 | ⟨y, hy, hyp, rfl⟩ | rfl
        · exact hlt b h3
        · show y.price < lvl.price
          exact hlt y hy
        · show o.price < lvl.price
          exact hop

theorem addToAsks_sorted (o : Order) (ls : List PriceLevel) (hs : Ascending ls) :
    Ascending (addToAsks o ls) := by
  induction ls with
  | nil => simp [addToAsks, Ascending]
  | cons lvl rest ih =>
    rw [Ascending, List.pairwise_cons] at hs
    obtain ⟨hlt, hrest⟩ := hs
    simp only [addToAsks]
    by_cases h1 : lvl.price = o.price
    · rw [if_pos h1, Ascending, List.pairwise_cons]
      exact ⟨fun b hb => hlt b hb, hrest⟩
    · rw [if_neg h1]
      by_cases h2 : o.price < lvl.price
      · rw [if_pos h2, Ascending, List.pairwise_cons]
        refine ⟨?_, List.pairwise_cons.mpr ⟨hlt, hrest⟩⟩
        intro b hb
        rcases List.mem_cons.mp hb with rfl | hb2
        · exact h2
        · exact lt_trans h2 (hlt b hb2)
      · rw [if_neg h2, Ascending, List.pairwise_cons]
        refine ⟨?_, ih hrest⟩
        intro b hb
        have hop : lvl.price < o.price :=
          lt_of_le_of_ne (not_lt.mp h2) h1
        rcases addToAsks_mem o rest b hb with h3 | ⟨y, hy, hyp, rfl⟩ | rfl
        · exact hlt b h3
        · show lvl.price < y.price
          exact hlt y hy
        · show lvl.price < o.price
          exact hop

theorem addToBids_head (o : Order) (ls : List PriceLevel) :
    ∀ hd, (addToBids o ls).head? = some hd →
      hd.price = o.price ∨ ∃ hd₀, ls.head? = some hd₀ ∧ hd.price = hd₀.price := by
  intro hd hhd
  cases ls with
  | nil =>
    simp only [addToBids, List.head?_cons, Option.some_inj] at hhd
    subst hhd
    exact Or.inl rfl
  | cons lvl rest =>
    simp only [addToBids] at hhd
    by_cases h1 : lvl.price = o.price
    · rw [if_pos h1] at hhd
      simp only [List.head?_cons, Option.some_inj] at hhd
      subst hhd
      exact Or.inr ⟨lvl, rfl, rfl⟩
    · rw [if_neg h1] at hhd
      by_cases h2 : lvl.price < o.price
      · rw [if_pos h2] at hhd
        simp only [List.head?_cons, Option.some_inj] at hhd
        subst hhd
        exact Or.inl rfl
      · rw [if_neg h2] at hhd
        simp only [List.head?_cons, Option.some_inj] at hhd
        subst hhd
        exact Or.inr ⟨lvl, rfl, rfl⟩

theorem addToAsks_head (o : Order) (ls : List PriceLevel) :
    ∀ hd, (addToAsks o ls).head? = some hd →
      hd.price = o.price ∨ ∃ hd₀, ls.head? = some hd₀ ∧ hd.price = hd₀.price := by
  intro hd hhd
  cases ls with
  | nil =>
    simp only [addToAsks, List.head?_cons, Option.some_inj] at hhd
    subst hhd
    exact Or.inl rfl
  | cons lvl rest =>
    simp only [addToAsks] at hhd
    by_cases h1 : lvl.price = o.price
    · rw [if_pos h1] at hhd
      simp only [List.head?_cons, Option.some_inj] at hhd
      subst hhd
      exact Or.inr ⟨lvl, rfl, rfl⟩
    · rw [if_neg h1] at hhd
      by_cases h2 : o.price < lvl.price
      · rw [if_pos h2] at hhd
        simp only [List.head?_cons, Option.some_inj] at hhd
        subst hhd
        exact Or.inl rfl
      · rw [if_neg h2] at hhd
        simp only [List.head?_cons, Option.some_inj] at hhd
        subst hhd
        exact Or.inr ⟨lvl, rfl, rfl⟩

/-! ### Lemmas about cancellation -/

theorem removeById_spec (id : Nat) (l : List Order) :
    (removeById id l = (none, l) ∧ ∀ o ∈ l, o.id ≠ id) ∨
      ∃ o rest, removeById id l = (some o, rest) ∧ o ∈ l ∧ o.id = id ∧
        sumRemaining l = o.remaining + sumRemaining rest ∧ ∀ x ∈ rest, x ∈ l := by
  induction l with
  | nil => exact Or.inl ⟨rfl, by simp⟩
  | cons o rest ih =>
    simp only [removeById]
    by_cases ho : o.id = id
    · rw [if_pos ho]
      exact Or.inr ⟨o, rest, rfl, List.mem_cons_self _ _, ho, sumRemaining_cons o rest,
        fun x hx => List.mem_cons_of_mem _ hx⟩
    · rw [if_neg ho]
      rcases ih with ⟨he, h3⟩ | ⟨o2, rest2, he, hmem, hid, hsum, hsub⟩
      · rw [he]
        refine Or.inl ⟨rfl, ?_⟩
        intro x hx
        rcases List.mem_cons.mp hx with rfl | hx2
        · exact ho
        · exact h3 x hx2
      · rw [he]
        refine Or.inr ⟨o2, o :: rest2, rfl, List.mem_cons_of_mem _ hmem, hid, ?_, ?_⟩
        · rw [sumRemaining_cons, sumRemaining_cons, hsum]
          omega
        · intro x hx
          rcases List.mem_cons.mp hx with rfl | hx2
          · exact List.mem_cons_self _ _
          · exact List.mem_cons_of_mem _ (hsub x hx2)

theorem removeById_ids (id : Nat) (l : List Order) :
    ((removeById id l).2).map Order.id = (l.map Order.id).erase id := by
  induction l with
  | nil => rfl
  | cons o rest ih =>
    simp only [removeById, List.map_cons, List.erase_cons]
    by_cases ho : o.id = id
    · rw [if_pos ho]
      rw [if_pos (by simpa using ho)]
    · rw [if_neg ho]
      rw [if_neg (by simpa using ho)]
      simp only [List.map_cons, ih]

theorem removeOrder_price (lvl : PriceLevel) (id : Nat) :
    (lvl.removeOrder id).price = lvl.price := by
  rw [PriceLevel.removeOrder]
  rcases h : removeById id lvl.orders with ⟨f, rest⟩
  cases f <;> rfl

theorem removeOrder_inv (side : Side) (lvl : PriceLevel) (id : Nat)
    (h : LevelInv side lvl) (hne : (lvl.removeOrder id).orders ≠ []) :
    LevelInv side (lvl.removeOrder id) := by
  obtain ⟨h1, h2, h3⟩ := h
  rw [PriceLevel.removeOrder] at hne ⊢
  rcases hro : removeById id lvl.orders with ⟨f, rest⟩
  rw [hro] at hne
  rcases f with _ | o
  · exact ⟨h1, h2, h3⟩
  · rcases removeById_spec id lvl.orders with ⟨hn, _⟩ | ⟨o2, rest2, hs, hmem, hid, hsum, hsub⟩
    · rw [hro] at hn
      simp at hn
    · rw [hro, Prod.mk.injEq, Option.some_inj] at hs
      obtain ⟨rfl, rfl⟩ := hs
      have hole : o.remaining ≤ sumRemaining lvl.orders := by omega
      refine ⟨hne, ?_, ?_⟩
      · show u32sub lvl.totalQuantity o.remaining = sumRemaining rest % U32
        rw [h2, u32sub_mod _ _ hole]
        congr 1
        omega
      · intro x hx
        obtain ⟨m1, m2, m3, m4⟩ := h3 x (hsub x hx)
        exact ⟨m1, m2, m3, m4⟩

theorem cancelInLevels_mem (p : Int) (id : Nat) (ls : List PriceLevel) :
    ∀ x ∈ cancelInLevels p id ls,
      x ∈ ls ∨ ∃ y ∈ ls, x = y.removeOrder id ∧ x.orders ≠ [] := by
  induction ls with
  | nil => simp [cancelInLevels]
  | cons lvl rest ih =>
    intro x hx
    simp only [cancelInLevels] at hx
    by_cases h1 : lvl.price = p
    · rw [if_pos h1] at hx
      by_cases he : (lvl.removeOrder id).isEmptyLevel
      · rw [if_pos he] at hx
        exact Or.inl (List.mem_cons_of_mem _ hx)
      · rw [if_neg he] at hx
        rcases List.mem_cons.mp hx with rfl | hx2
        · refine Or.inr ⟨lvl, List.mem_cons_self _ _, rfl, ?_⟩
          simpa [PriceLevel.isEmptyLevel, List.isEmpty_iff] using he
        · exact Or.inl (List.mem_cons_of_mem _ hx2)
    · rw [if_neg h1] at hx
      rcases List.mem_cons.mp hx with rfl | hx2
      · exact Or.inl (List.mem_cons_self _ _)
      · rcases ih x hx2 with h | ⟨y, hy, hxy, hne⟩
        · exact Or.inl (List.mem_cons_of_mem _ h)
        · exact Or.inr ⟨y, List.mem_cons_of_mem _ hy, hxy, hne⟩

theorem cancelInLevels_inv (side : Side) (p : Int) (id : Nat) (ls : List PriceLevel)
    (h : ∀ lvl ∈ ls, LevelInv side lvl) :
    ∀ x ∈ cancelInLevels p id ls, LevelInv side x := by
  intro x hx
  rcases cancelInLevels_mem p id ls x hx with h1 | ⟨y, hy, rfl, hne⟩
  · exact h x h1
  · exact removeOrder_inv side y id (h y hy) hne

theorem cancelInLevels_pairwise (p : Int) (id : Nat) (R : Int → Int → Prop)
    (ls : List PriceLevel) (hs : List.Pairwise (fun a b => R a.price b.price) ls) :
    List.Pairwise (fun a b => R a.price b.price) (cancelInLevels p id ls) := by
  induction ls with
  | nil => simp [cancelInLevels]
  | cons lvl rest ih =>
    rw [List.pairwise_cons] at hs
    obtain ⟨hlt, hrest⟩ := hs
    simp only [cancelInLevels]
    by_cases h1 : lvl.price = p
    · rw [if_pos h1]
      by_cases he : (lvl.removeOrder id).isEmptyLevel
      · rw [if_pos he]
        exact hrest
      · rw [if_neg he]
        rw [List.pairwise_cons]
        refine ⟨?_, hrest⟩
        intro b hb
        rw [removeOrder_price]
        exact hlt b hb
    · rw [if_neg h1]
      rw [List.pairwise_cons]
      refine ⟨?_, ih hrest⟩
      intro b hb
      rcases cancelInLevels_mem p id rest b hb with h2 | ⟨y, hy, rfl, _⟩
      · exact hlt b h2
      · show R lvl.price (y.removeOrder id).price
        rw [removeOrder_price]
        exact hlt y hy

theorem cancelInLevels_head (p : Int) (id : Nat) (ls : List PriceLevel) :
    ∀ hd, (cancelInLevels p id ls).head? = some hd →
      (∃ hd₀, ls.head? = some hd₀ ∧ hd.price = hd₀.price) ∨
        ∃ hd₀ t, ls = hd₀ :: hd :: t := by
  intro hd hhd
  cases ls with
  | nil => simp [cancelInLevels] at hhd
  | cons lvl rest =>
    simp only [cancelInLevels] at hhd
    by_cases h1 : lvl.price = p
    · rw [if_pos h1] at hhd
      by_cases he : (lvl.removeOrder id).isEmptyLevel
      · rw [if_pos he] at hhd
        cases rest with
        | nil => simp at hhd
        | cons r2 t =>
          simp only [List.head?_cons, Option.some_inj] at hhd
          subst hhd
          exact Or.inr ⟨lvl, t, rfl⟩
      · rw [if_neg he] at hhd
        simp only [List.head?_cons, Option.some_inj] at hhd
        subst hhd
        exact Or.inl ⟨lvl, rfl, removeOrder_price lvl id⟩
    · rw [if_neg h1] at hhd
      simp only [List.head?_cons, Option.some_inj] at hhd
      subst hhd
      exact Or.inl ⟨lvl, rfl, rfl⟩

/-! ### Sortedness and head bounds for the match loop and cancellation -/

theorem matchLoop_sorted (isBuy : Bool) (R : Int → Int → Prop) (inc : Order)
    (levels : List PriceLevel)
    (hs : List.Pairwise (fun a b => R a.price b.price) levels) :
    List.Pairwise (fun a b => R a.price b.price) (matchLoop isBuy inc levels).levels := by
  have h1 : List.Pairwise R (levels.map PriceLevel.price) := List.pairwise_map.mpr hs
  have h2 := (matchLoop_prices isBuy inc levels).sublist
  exact List.pairwise_map.mp (h1.sublist h2)

theorem matchLoop_head_ge (isBuy : Bool) (inc : Order) (levels : List PriceLevel)
    (hs : Ascending levels) :
    ∀ hd, (matchLoop isBuy inc levels).levels.head? = some hd →
      ∃ hd₀, levels.head? = some hd₀ ∧ hd₀.price ≤ hd.price := by
  intro hd hhd
  have hsuf := matchLoop_prices isBuy inc levels
  have hp : ((matchLoop isBuy inc levels).levels.map PriceLevel.price).head? =
      some hd.price := by
    rw [List.head?_map, hhd]
    rfl
  obtain ⟨q, hq, hle⟩ := suffix_head_le _ _ hsuf (List.pairwise_map.mpr hs) hd.price hp
  rw [List.head?_map] at hq
  cases hh : levels.head? with
  | none =>
    rw [hh] at hq
    exact Option.noConfusion hq
  | some hd₀ =>
    rw [hh] at hq
    simp only [Option.map_some', Option.some_inj] at hq
    exact ⟨hd₀, rfl, hq ▸ hle⟩

theorem matchLoop_head_le (isBuy : Bool) (inc : Order) (levels : List PriceLevel)
    (hs : Descending levels) :
    ∀ hd, (matchLoop isBuy inc levels).levels.head? = some hd →
      ∃ hd₀, levels.head? = some hd₀ ∧ hd.price ≤ hd₀.price := by
  intro hd hhd
  have hsuf := matchLoop_prices isBuy inc levels
  have hp : ((matchLoop isBuy inc levels).levels.map PriceLevel.price).head? =
      some hd.price := by
    rw [List.head?_map, hhd]
    rfl
  obtain ⟨q, hq, hle⟩ := suffix_head_ge _ _ hsuf (List.pairwise_map.mpr hs) hd.price hp
  rw [List.head?_map] at hq
  cases hh : levels.head? with
  | none =>
    rw [hh] at hq
    exact Option.noConfusion hq
  | some hd₀ =>
    rw [hh] at hq
    simp only [Option.map_some', Option.some_inj] at hq
    exact ⟨hd₀, rfl, hq ▸ hle⟩

theorem cancelInLevels_head_le (p : Int) (id : Nat) (ls : List PriceLevel)
    (hs : Descending ls) :
    ∀ hd, (cancelInLevels p id ls).head? = some hd →
      ∃ hd₀, ls.head? = some hd₀ ∧ hd.price ≤ hd₀.price := by
  intro hd hhd
  rcases cancelInLevels_head p id ls hd hhd with ⟨hd₀, h1, h2⟩ | ⟨hd₀, t, rfl⟩
  · exact ⟨hd₀, h1, le_of_eq h2⟩
  · rw [Descending, List.pairwise_cons] at hs
    exact ⟨hd₀, rfl, le_of_lt (hs.1 hd (List.mem_cons_self _ _))⟩

theorem cancelInLevels_head_ge (p : Int) (id : Nat) (ls : List PriceLevel)
    (hs : Ascending ls) :
    ∀ hd, (cancelInLevels p id ls).head? = some hd →
      ∃ hd₀, ls.head? = some hd₀ ∧ hd₀.price ≤ hd.price := by
  intro hd hhd
  rcases cancelInLevels_head p id ls hd hhd with ⟨hd₀, h1, h2⟩ | ⟨hd₀, t, rfl⟩
  · exact ⟨hd₀, h1, le_of_eq h2.symm⟩
  · rw [Ascending, List.pairwise_cons] at hs
    exact ⟨hd₀, rfl, le_of_lt (hs.1 hd (List.mem_cons_self _ _))⟩

/-! ### Preservation of the book invariant -/

theorem bookInv_empty : bookInv OrderBook.emptyBook := by
  refine ⟨?_, ?_, ?_, ?_, ?_⟩ <;>
    simp [Descending, Ascending, OrderBook.emptyBook, OrderBook.bestBid, OrderBook.bestAsk]

theorem matchOrder_bookInv (b : OrderBook) (inc : Order) (h : bookInv b) :
    bookInv (b.matchOrder inc).2.1 := by
  obtain ⟨hb1, hb2, hb3, hb4, hb5⟩ := h
  cases hside : inc.side
  case Buy =>
    simp only [OrderBook.matchOrder, hside]
    refine ⟨hb1, ?_, hb3, ?_, ?_⟩
    · exact matchLoop_sorted true (fun a b => a < b) inc b.asks hb2
    · exact matchLoop_levels true Side.Sell inc b.asks hb4
    · intro pb hpb pa hpa
      rw [Option.mem_def] at hpb hpa
      have hpb2 : b.bids.head?.map PriceLevel.price = some pb := hpb
      have hpa2 : (matchLoop true inc b.asks).levels.head?.map PriceLevel.price =
          some pa := hpa
      obtain ⟨lb, hlb, hlbp⟩ := Option.map_eq_some'.mp hpb2
      obtain ⟨la, hla, hlap⟩ := Option.map_eq_some'.mp hpa2
      obtain ⟨la₀, hla₀, hle⟩ := matchLoop_head_ge true inc b.asks hb2 la hla
      have h5 := hb5 pb (by show b.bids.head?.map PriceLevel.price = some pb; exact hpb2)
        la₀.price (by show b.asks.head?.map PriceLevel.price = some la₀.price
                      rw [hla₀]; rfl)
      omega
  case Sell =>
    simp only [OrderBook.matchOrder, hside]
    refine ⟨?_, hb2, ?_, hb4, ?_⟩
    · exact matchLoop_sorted false (fun a b => b < a) inc b.bids hb1
    · exact matchLoop_levels false Side.Buy inc b.bids hb3
    · intro pb hpb pa hpa
      rw [Option.mem_def] at hpb hpa
      have hpb2 : (matchLoop false inc b.bids).levels.head?.map PriceLevel.price =
          some pb := hpb
      have hpa2 : b.asks.head?.map PriceLevel.price = some pa := hpa
      obtain ⟨lb, hlb, hlbp⟩ := Option.map_eq_some'.mp hpb2
      obtain ⟨la, hla, hlap⟩ := Option.map_eq_some'.mp hpa2
      obtain ⟨lb₀, hlb₀, hle⟩ := matchLoop_head_le false inc b.bids hb1 lb hlb
      have h5 := hb5 lb₀.price
        (by show b.bids.head?.map PriceLevel.price = some lb₀.price
            rw [hlb₀]; rfl)
        pa (by show b.asks.head?.map PriceLevel.price = some pa; exact hpa2)
      omega

theorem matchRest_bookInv (b : OrderBook) (inc : Order) (h : bookInv b)
    (htype : inc.type = OrderType.Limit)
    (hrem : (b.matchOrder inc).1.remaining ≠ 0) :
    bookInv ((b.matchOrder inc).2.1.addOrder (b.matchOrder inc).1) := by
  obtain ⟨hb1, hb2, hb3, hb4, hb5⟩ := h
  cases hside : inc.side
  case Buy =>
    obtain ⟨f1, f2, f3, f4, f5⟩ := matchLoop_inc_fields true inc b.asks
    simp only [OrderBook.matchOrder, hside] at hrem ⊢
    have hms : (matchLoop true inc b.asks).incoming.side = Side.Buy := f2.trans hside
    simp only [OrderBook.addOrder, hms]
    refine ⟨?_, ?_, ?_, ?_, ?_⟩
    · exact addToBids_sorted _ _ hb1
    · exact matchLoop_sorted true (fun a b => a < b) inc b.asks hb2
    · exact addToBids_inv _ _ hb3 ⟨hms, f3.trans htype, Nat.pos_of_ne_zero hrem⟩
    · exact matchLoop_levels true Side.Sell inc b.asks hb4
    · intro pb hpb pa hpa
      rw [Option.mem_def] at hpb hpa
      have hpb2 : (addToBids (matchLoop true inc b.asks).incoming b.bids).head?.map
          PriceLevel.price = some pb := hpb
      have hpa2 : (matchLoop true inc b.asks).levels.head?.map PriceLevel.price =
          some pa := hpa
      obtain ⟨lb, hlb, hlbp⟩ := Option.map_eq_some'.mp hpb2
      obtain ⟨la, hla, hlap⟩ := Option.map_eq_some'.mp hpa2
      obtain ⟨la₀, hla₀, hle⟩ := matchLoop_head_ge true inc b.asks hb2 la hla
      rcases addToBids_head _ _ lb hlb with hcase | ⟨lb₀, hlb₀, heq⟩
      · -- the new best bid is the freshly rested order's price
        rcases matchLoop_stop true inc b.asks htype hrem with hnil | ⟨hd, hhd, hlt⟩
        · rw [hnil] at hla
          exact Option.noConfusion hla
        · rw [hhd, Option.some_inj] at hla
          rw [f4] at hcase
          simp at hlt
          subst hla
          omega
      · have h5 := hb5 lb₀.price
          (by show b.bids.head?.map PriceLevel.price = some lb₀.price
              rw [hlb₀]; rfl)
          la₀.price
          (by show b.asks.head?.map PriceLevel.price = some la₀.price
              rw [hla₀]; rfl)
        omega
  case Sell =>
    obtain ⟨f1, f2, f3, f4, f5⟩ := matchLoop_inc_fields false inc b.bids
    simp only [OrderBook.matchOrder, hside] at hrem ⊢
    have hms : (matchLoop false inc b.bids).incoming.side = Side.Sell := f2.trans hside
    simp only [OrderBook.addOrder, hms]
    refine ⟨?_, ?_, ?_, ?_, ?_⟩
    · exact matchLoop_sorted false (fun a b => b < a) inc b.bids hb1
    · exact addToAsks_sorted _ _ hb2
    · exact matchLoop_levels false Side.Buy inc b.bids hb3
    · exact addToAsks_inv _ _ hb4 ⟨hms, f3.trans htype, Nat.pos_of_ne_zero hrem⟩
    · intro pb hpb pa hpa
      rw [Option.mem_def] at hpb hpa
      have hpb2 : (matchLoop false inc b.bids).levels.head?.map PriceLevel.price =
          some pb := hpb
      have hpa2 : (addToAsks (matchLoop false inc b.bids).incoming b.asks).head?.map
          PriceLevel.price = some pa := hpa
      obtain ⟨lb, hlb, hlbp⟩ := Option.map_eq_some'.mp hpb2
      obtain ⟨la, hla, hlap⟩ := Option.map_eq_some'.mp hpa2
      obtain ⟨lb₀, hlb₀, hle⟩ := matchLoop_head_le false inc b.bids hb1 lb hlb
      rcases addToAsks_head _ _ la hla with hcase | ⟨la₀, hla₀, heq⟩
      · rcases matchLoop_stop false inc b.bids htype hrem with hnil | ⟨hd, hhd, hlt⟩
        · rw [hnil] at hlb
          exact Option.noConfusion hlb
        · rw [hhd, Option.some_inj] at hlb
          rw [f4] at hcase
          simp at hlt
          subst hlb
          omega
      · have h5 := hb5 lb₀.price
          (by show b.bids.head?.map PriceLevel.price = some lb₀.price
              rw [hlb₀]; rfl)
          la₀.price
          (by show b.asks.head?.map PriceLevel.price = some la₀.price
              rw [hla₀]; rfl)
        omega

theorem cancelOrder_bookInv (b : OrderBook) (id : Nat) (h : bookInv b) :
    bookInv (b.cancelOrder id).2 := by
  obtain ⟨hb1, hb2, hb3, hb4, hb5⟩ := h
  rw [OrderBook.cancelOrder]
  rcases hlf : lookupFind id b.orderLookup with _ | sp
  · exact ⟨hb1, hb2, hb3, hb4, hb5⟩
  · rcases hsp : sp.1
    case Buy =>
      simp only [hsp]
      refine ⟨?_, hb2, ?_, hb4, ?_⟩
      · exact cancelInLevels_pairwise sp.2 id (fun a b => b < a) b.bids hb1
      · exact cancelInLevels_inv Side.Buy sp.2 id b.bids hb3
      · intro pb hpb pa hpa
        rw [Option.mem_def] at hpb hpa
        have hpb2 : (cancelInLevels sp.2 id b.bids).head?.map PriceLevel.price =
            some pb := hpb
        have hpa2 : b.asks.head?.map PriceLevel.price = some pa := hpa
        obtain ⟨lb, hlb, hlbp⟩ := Option.map_eq_some'.mp hpb2
        obtain ⟨lb₀, hlb₀, hle⟩ := cancelInLevels_head_le sp.2 id b.bids hb1 lb hlb
        have h5 := hb5 lb₀.price
          (by show b.bids.head?.map PriceLevel.price = some lb₀.price
              rw [hlb₀]; rfl)
          pa (by show b.asks.head?.map PriceLevel.price = some pa; exact hpa2)
        omega
    case Sell =>
      simp only [hsp]
      refine ⟨hb1, ?_, hb3, ?_, ?_⟩
      · exact cancelInLevels_pairwise sp.2 id (fun a b => a < b) b.asks hb2
      · exact cancelInLevels_inv Side.Sell sp.2 id b.asks hb4
      · intro pb hpb pa hpa
        rw [Option.mem_def] at hpb hpa
        have hpb2 : b.bids.head?.map PriceLevel.price = some pb := hpb
        have hpa2 : (cancelInLevels sp.2 id b.asks).head?.map PriceLevel.price =
            some pa := hpa
        obtain ⟨la, hla, hlap⟩ := Option.map_eq_some'.mp hpa2
        obtain ⟨la₀, hla₀, hle⟩ := cancelInLevels_head_ge sp.2 id b.asks hb2 la hla
        have h5 := hb5 pb
          (by show b.bids.head?.map PriceLevel.price = some pb; exact hpb2)
          la₀.price
          (by show b.asks.head?.map PriceLevel.price = some la₀.price
              rw [hla₀]; rfl)
        omega

theorem submitLimit_bookInv (e : MatchingEngine) (id : Nat) (side : Side) (price : Int)
    (qty : Nat) (h : bookInv e.book) :
    bookInv (e.submitLimit id side price qty).2.book := by
  simp only [MatchingEngine.submitLimit]
  by_cases hfree : e.freeSlots = 0
  · rw [if_pos hfree]
    exact h
  · rw [if_neg hfree]
    by_cases hfill : (e.book.matchOrder ⟨id, side, OrderType.Limit, price, qty, qty⟩).1.isFilled
    · rw [if_pos hfill]
      exact matchOrder_bookInv e.book _ h
    · rw [if_neg hfill]
      refine matchRest_bookInv e.book _ h rfl ?_
      rw [isFilled_true_iff] at hfill
      exact hfill

theorem submitMarket_bookInv (e : MatchingEngine) (id : Nat) (side : Side)
    (qty : Nat) (h : bookInv e.book) :
    bookInv (e.submitMarket id side qty).2.book := by
  simp only [MatchingEngine.submitMarket]
  by_cases hfree : e.freeSlots = 0
  · rw [if_pos hfree]
    exact h
  · rw [if_neg hfree]
    exact matchOrder_bookInv e.book _ h

theorem applyOp_bookInv (e : MatchingEngine) (op : Op) (h : bookInv e.book) :
    bookInv ((e.applyOp op).2).book := by
  cases op with
  | limit id side price qty => exact submitLimit_bookInv e id side price qty h
  | market id side qty => exact submitMarket_bookInv e id side qty h
  | cancel id => exact cancelOrder_bookInv e.book id h

theorem foldl_bookInv (ops : List Op) :
    ∀ e : MatchingEngine, bookInv e.book →
      bookInv ((ops.foldl (fun e op => (e.applyOp op).2) e)).book := by
  induction ops with
  | nil => exact fun e h => h
  | cons op rest ih => exact fun e h => ih _ (applyOp_bookInv e op h)

theorem run_bookInv (ops : List Op) : bookInv (run ops).book :=
  foldl_bookInv ops (MatchingEngine.init 2000000) bookInv_empty

/-! ### Claim C2: the book never rests locked or crossed -/

/-- C2: after every completed operation starting from the empty book (any
sequence of submitLimit, submitMarket and cancel), if bestBid and bestAsk
are both present then bestBid < bestAsk: the book never rests in a locked
or crossed state. -/
theorem book_never_crossed (ops : List Op) (pb pa : Int)
    (hb : (run ops).book.bestBid = some pb) (ha : (run ops).book.bestAsk = some pa) :
    pb < pa :=
  (run_bookInv ops).2.2.2.2 pb (Option.mem_def.mpr hb) pa (Option.mem_def.mpr ha)

/-- Witness for C2 at a concrete operation sequence. -/
theorem book_never_crossed_witness :
    (run [Op.limit 1 Side.Sell 10100 50, Op.limit 2 Side.Buy 10000 60]).book.bestBid =
        some 10000 ∧
      (run [Op.limit 1 Side.Sell 10100 50, Op.limit 2 Side.Buy 10000 60]).book.bestAsk =
        some 10100 ∧
      (10000 : Int) < 10100 :=
  ⟨by decide, by decide,
    book_never_crossed [Op.limit 1 Side.Sell 10100 50, Op.limit 2 Side.Buy 10000 60]
      10000 10100 (by decide) (by decide)⟩

/-! ### Claim C3: cached level totals -/

/-- C3 counterexample: `totalQuantity` is a `uint32_t`, so with two resting
orders of 4294967295 at one level the cached total wraps to 4294967294 while
the sum of remaining quantities is 8589934590 — the claimed equality fails
on a reachable book state. -/
theorem level_totalQuantity_wraps :
    ¬ ∀ lvl ∈ (run [Op.limit 1 Side.Buy 100 4294967295,
        Op.limit 2 Side.Buy 100 4294967295]).book.bids,
      lvl.totalQuantity = sumRemaining lvl.orders := by
  decide

/-- C3 amended: after every operation, every level present in either side
map has a non-empty FIFO (no empty price level persists), and its cached
totalQuantity equals the sum of the remaining quantities of its resting
orders reduced modulo 2^32 (outright equality whenever the sum fits in
32 bits, as it always does with realistic quantities). -/
theorem level_invariant_mod (ops : List Op) (lvl : PriceLevel)
    (h : lvl ∈ (run ops).book.bids ∨ lvl ∈ (run ops).book.asks) :
    lvl.orders ≠ [] ∧ lvl.totalQuantity = sumRemaining lvl.orders % U32 := by
  obtain ⟨hb1, hb2, hb3, hb4, hb5⟩ := run_bookInv ops
  rcases h with h | h
  · exact ⟨(hb3 lvl h).1, (hb3 lvl h).2.1⟩
  · exact ⟨(hb4 lvl h).1, (hb4 lvl h).2.1⟩

/-- Witness for the amended C3 at a concrete operation sequence. -/
theorem level_invariant_mod_witness :
    ((⟨100, [⟨1, Side.Buy, OrderType.Limit, 100, 50, 50⟩], 50⟩ : PriceLevel) ∈
        (run [Op.limit 1 Side.Buy 100 50]).book.bids ∨
      (⟨100, [⟨1, Side.Buy, OrderType.Limit, 100, 50, 50⟩], 50⟩ : PriceLevel) ∈
        (run [Op.limit 1 Side.Buy 100 50]).book.asks) ∧
    ((⟨100, [⟨1, Side.Buy, OrderType.Limit, 100, 50, 50⟩], 50⟩ : PriceLevel).orders ≠ [] ∧
      (⟨100, [⟨1, Side.Buy, OrderType.Limit, 100, 50, 50⟩], 50⟩ : PriceLevel).totalQuantity =
        sumRemaining (⟨100, [⟨1, Side.Buy, OrderType.Limit, 100, 50, 50⟩],
          50⟩ : PriceLevel).orders % U32) :=
  ⟨Or.inl (by decide),
    level_invariant_mod [Op.limit 1 Side.Buy 100 50] _ (Or.inl (by decide))⟩

/-! ### Claim C6: market orders -/

/-- C6: a market order is matched with no price barrier until the opposing
side is empty or its remaining quantity is zero; a market submission leaves
the book exactly as matching left it (nothing is rested and the residual is
discarded), and after every operation no market-type order is present in the
book index. -/
theorem market_orders_never_rest (ops : List Op) :
    ((∀ lvl ∈ (run ops).book.bids, ∀ o ∈ lvl.orders, o.type = OrderType.Limit) ∧
      ∀ lvl ∈ (run ops).book.asks, ∀ o ∈ lvl.orders, o.type = OrderType.Limit) ∧
    (∀ (isBuy : Bool) (inc : Order) (levels : List PriceLevel),
      inc.type = OrderType.Market →
        (matchLoop isBuy inc levels).levels = [] ∨
          (matchLoop isBuy inc levels).incoming.remaining = 0) ∧
    (∀ (e : MatchingEngine) (id : Nat) (side : Side) (qty : Nat), e.freeSlots ≠ 0 →
      (e.submitMarket id side qty).2.book =
        (e.book.matchOrder ⟨id, side, OrderType.Market, 0, qty, qty⟩).2.1) := by
  obtain ⟨hb1, hb2, hb3, hb4, hb5⟩ := run_bookInv ops
  refine ⟨⟨?_, ?_⟩, ?_, ?_⟩
  · exact fun lvl hl o ho => ((hb3 lvl hl).2.2 o ho).2.1
  · exact fun lvl hl o ho => ((hb4 lvl hl).2.2 o ho).2.1
  · exact fun isBuy inc levels ht => matchLoop_market isBuy inc levels ht
  · intro e id side qty hfree
    simp only [MatchingEngine.submitMarket]
    rw [if_neg hfree]

/-- Witness for C6: a concrete market order that walks one ask level and a
concrete market submission. -/
theorem market_orders_never_rest_witness :
    (⟨3, Side.Buy, OrderType.Market, 0, 75, 75⟩ : Order).type = OrderType.Market ∧
    ((matchLoop true ⟨3, Side.Buy, OrderType.Market, 0, 75, 75⟩
        [⟨10000, [⟨1, Side.Sell, OrderType.Limit, 10000, 50, 50⟩], 50⟩]).levels = [] ∨
      (matchLoop true ⟨3, Side.Buy, OrderType.Market, 0, 75, 75⟩
        [⟨10000, [⟨1, Side.Sell, OrderType.Limit, 10000, 50, 50⟩], 50⟩]).incoming.remaining
        = 0) :=
  ⟨rfl, (market_orders_never_rest []).2.1 true ⟨3, Side.Buy, OrderType.Market, 0, 75, 75⟩
    [⟨10000, [⟨1, Side.Sell, OrderType.Limit, 10000, 50, 50⟩], 50⟩] rfl⟩

/-! ### Claims C4, C5, C8: submission edge cases -/

theorem matchOrder_zero (b : OrderBook) (inc : Order) (h0 : inc.remaining = 0) :
    b.matchOrder inc = (inc, b, ⟨[], []⟩) := by
  cases hside : inc.side
  case Buy =>
    simp only [OrderBook.matchOrder, hside, matchLoop_zero true inc b.asks h0]
    rfl
  case Sell =>
    simp only [OrderBook.matchOrder, hside, matchLoop_zero false inc b.bids h0]
    rfl

/-- C4 counterexample: a zero-quantity submission is not rejected as
InvalidQuantity: it returns an ordinary (empty) trade reply and increments
the totalOrders counter, so state does change. -/
theorem zero_qty_not_rejected :
    ((MatchingEngine.init 2000000).submitLimit 1 Side.Buy 100 0).1 = Except.ok [] ∧
    ((MatchingEngine.init 2000000).submitLimit 1 Side.Buy 100 0).2.totalOrders = 1 ∧
    (MatchingEngine.init 2000000).totalOrders = 0 :=
  ⟨rfl, rfl, rfl⟩

/-- C4 amended: the code performs no qty == 0 check.  A zero-quantity
submitLimit or submitMarket (with a free slot available) is processed like
any other order: it produces no trades and leaves the book, totalTrades and
the pool unchanged, but increments totalOrders. -/
theorem zero_qty_submission (e : MatchingEngine) (id : Nat) (side : Side) (price : Int)
    (hfree : e.freeSlots ≠ 0) :
    (e.submitLimit id side price 0).1 = Except.ok [] ∧
    (e.submitLimit id side price 0).2 = { e with orderCount := e.orderCount + 1 } ∧
    (e.submitMarket id side 0).1 = Except.ok [] ∧
    (e.submitMarket id side 0).2 = { e with orderCount := e.orderCount + 1 } := by
  have hmL := matchOrder_zero e.book ⟨id, side, OrderType.Limit, price, 0, 0⟩ rfl
  have hmM := matchOrder_zero e.book ⟨id, side, OrderType.Market, 0, 0, 0⟩ rfl
  refine ⟨?_, ?_, ?_, ?_⟩
  · simp only [MatchingEngine.submitLimit, if_neg hfree, hmL]
    rw [if_pos (by rfl)]
  · simp only [MatchingEngine.submitLimit, if_neg hfree, hmL]
    rw [if_pos (by rfl)]
    cases e with
    | mk book freeSlots tradeCount orderCount =>
      simp only [MatchingEngine.mk.injEq, List.length_nil]
      simp only at hfree
      refine ⟨?_, ?_, ?_, ?_⟩ <;> first | rfl | trivial | omega
  · simp only [MatchingEngine.submitMarket, if_neg hfree, hmM]
  · simp only [MatchingEngine.submitMarket, if_neg hfree, hmM]
    cases e with
    | mk book freeSlots tradeCount orderCount =>
      simp only [MatchingEngine.mk.injEq, List.length_nil]
      simp only at hfree
      refine ⟨?_, ?_, ?_, ?_⟩ <;> first | rfl | trivial | omega

/-- Witness for the amended C4. -/
theorem zero_qty_submission_witness :
    (MatchingEngine.init 2000000).freeSlots ≠ 0 ∧
    ((MatchingEngine.init 2000000).submitLimit 1 Side.Buy 100 0).1 = Except.ok [] :=
  ⟨by decide, (zero_qty_submission (MatchingEngine.init 2000000) 1 Side.Buy 100
    (by decide)).1⟩

/-- C5 counterexample: with order 1 resting, submitting id 1 again is not
detected or rejected: the submission is processed normally, the duplicate
order rests at a second price level, and the id binding is silently
overwritten (orderCount remains 1 although two orders rest). -/
theorem duplicate_id_processed :
    (run [Op.limit 1 Side.Buy 100 50]).book.orderCount = 1 ∧
    ((run [Op.limit 1 Side.Buy 100 50]).submitLimit 1 Side.Buy 90 60).1 = Except.ok [] ∧
    ((run [Op.limit 1 Side.Buy 100 50]).submitLimit 1 Side.Buy 90 60).2.book.bidLevelCount
      = 2 ∧
    ((run [Op.limit 1 Side.Buy 100 50]).submitLimit 1 Side.Buy 90 60).2.book.orderCount
      = 1 :=
  ⟨rfl, rfl, rfl, rfl⟩

/-- C5 amended: the facade performs no resting-id precondition check.  A
submission fails only on pool exhaustion: whenever a free slot exists,
submitLimit returns an ordinary reply, whether or not the id is currently
the id of a resting order. -/
theorem no_resting_id_check (e : MatchingEngine) (id : Nat) (side : Side) (price : Int)
    (qty : Nat) (hfree : e.freeSlots ≠ 0) :
    ∃ ts, (e.submitLimit id side price qty).1 = Except.ok ts := by
  simp only [MatchingEngine.submitLimit, if_neg hfree]
  by_cases hfill :
      (e.book.matchOrder ⟨id, side, OrderType.Limit, price, qty, qty⟩).1.isFilled
  · rw [if_pos hfill]
    exact ⟨_, rfl⟩
  · rw [if_neg hfill]
    exact ⟨_, rfl⟩

/-- Witness for the amended C5: submitting an id that is currently resting
still succeeds. -/
theorem no_resting_id_check_witness :
    (run [Op.limit 7 Side.Buy 50 10]).freeSlots ≠ 0 ∧
    ∃ ts, ((run [Op.limit 7 Side.Buy 50 10]).submitLimit 7 Side.Sell 50 5).1 =
      Except.ok ts :=
  ⟨by decide, no_resting_id_check (run [Op.limit 7 Side.Buy 50 10]) 7 Side.Sell 50 5
    (by decide)⟩

/-- C8: when the pool has no free slot, acquire fails ("Object pool
exhausted") and the failed submission is atomic — the engine, its book and
its totalOrders / totalTrades counters are returned unchanged; conversely,
with a free slot available a submission never fails. -/
theorem pool_exhaustion_atomic (e : MatchingEngine) (id : Nat) (side : Side)
    (price : Int) (qty : Nat) :
    (e.freeSlots = 0 →
      e.submitLimit id side price qty = (Except.error "Object pool exhausted", e) ∧
      e.submitMarket id side qty = (Except.error "Object pool exhausted", e)) ∧
    (e.freeSlots ≠ 0 →
      (∃ ts, (e.submitLimit id side price qty).1 = Except.ok ts) ∧
      ∃ ts, (e.submitMarket id side qty).1 = Except.ok ts) := by
  constructor
  · intro hfree
    constructor
    · simp only [MatchingEngine.submitLimit, if_pos hfree]
    · simp only [MatchingEngine.submitMarket, if_pos hfree]
  · intro hfree
    constructor
    · simp only [MatchingEngine.submitLimit, if_neg hfree]
      by_cases hfill :
          (e.book.matchOrder ⟨id, side, OrderType.Limit, price, qty, qty⟩).1.isFilled
      · rw [if_pos hfill]
        exact ⟨_, rfl⟩
      · rw [if_neg hfill]
        exact ⟨_, rfl⟩
    · simp only [MatchingEngine.submitMarket, if_neg hfree]
      exact ⟨_, rfl⟩

/-- Witness for C8 at an exhausted pool. -/
theorem pool_exhaustion_atomic_witness :
    (MatchingEngine.init 0).freeSlots = 0 ∧
    (MatchingEngine.init 0).submitLimit 1 Side.Buy 100 5 =
      (Except.error "Object pool exhausted", MatchingEngine.init 0) :=
  ⟨rfl, ((pool_exhaustion_atomic (MatchingEngine.init 0) 1 Side.Buy 100 5).1 rfl).1⟩

/-! ### Claim C1: the matcher implements the reference algorithm of spec 4.4 -/

theorem fillLoop_ref (isBuy : Bool) (px : Int) (inc : Order) (tq : Nat)
    (os : List Order) :
    refFIFO isBuy inc.id px inc.remaining (os.map fun o => (o.id, o.remaining)) =
      ((fillLoop isBuy px inc tq os).incoming.remaining,
       (fillLoop isBuy px inc tq os).orders.map fun o => (o.id, o.remaining),
       (fillLoop isBuy px inc tq os).trades) := by
  induction os generalizing inc tq with
  | nil => simp [refFIFO, fillLoop]
  | cons front rest ih =>
    simp only [refFIFO, fillLoop, List.map_cons]
    by_cases h0 : inc.remaining = 0
    · rw [if_pos h0, if_pos h0]
      rfl
    · rw [if_neg h0, if_neg h0]
      have hfr := fill_min_front inc front
      have hir := fill_min_inc inc front
      by_cases hf : front.remaining - min inc.remaining front.remaining = 0
      · rw [if_pos hf,
          if_pos (show (front.fill (min inc.remaining front.remaining)).isFilled = true by
            rw [isFilled_true_iff, hfr]; exact hf)]
        have hid : (inc.fill (min inc.remaining front.remaining)).id = inc.id := rfl
        have := ih (inc.fill (min inc.remaining front.remaining))
          (u32sub tq (min inc.remaining front.remaining))
        rw [hid, hir] at this
        rw [this]
      · rw [if_neg hf,
          if_neg (show ¬ (front.fill (min inc.remaining front.remaining)).isFilled = true by
            rw [isFilled_true_iff, hfr]; exact hf)]
        simp [hir, hfr, Order.fill]

theorem matchLoop_ref (isBuy : Bool) (inc : Order) (levels : List PriceLevel) :
    refWalk isBuy (inc.type == OrderType.Limit) inc.id inc.price inc.remaining
        (levels.map absLevel) =
      (matchLoop isBuy inc levels).trades := by
  induction levels generalizing inc with
  | nil => simp [refWalk, matchLoop]
  | cons lvl rest ih =>
    simp only [refWalk, matchLoop, List.map_cons, absLevel]
    by_cases h0 : inc.remaining = 0
    · rw [if_pos h0, if_pos h0]
    · rw [if_neg h0, if_neg h0]
      by_cases hbreak : inc.type = OrderType.Limit ∧
          (if isBuy then inc.price < lvl.price else lvl.price < inc.price)
      · rw [if_pos hbreak, if_pos ⟨beq_iff_eq.mpr hbreak.1, hbreak.2⟩]
      · rw [if_neg hbreak,
          if_neg (fun hc => hbreak ⟨beq_iff_eq.mp hc.1, hc.2⟩)]
        have href := fillLoop_ref isBuy lvl.price inc lvl.totalQuantity lvl.orders
        rw [href]
        obtain ⟨f1, f2, f3, f4, f5⟩ :=
          fillLoop_inc_fields isBuy lvl.price inc lvl.totalQuantity lvl.orders
        by_cases he : (fillLoop isBuy lvl.price inc lvl.totalQuantity lvl.orders).orders
            = []
        · rw [if_pos (show (List.map (fun o => (o.id, o.remaining))
              (fillLoop isBuy lvl.price inc lvl.totalQuantity lvl.orders).orders).isEmpty
                = true by simp [he]),
            if_pos (show (fillLoop isBuy lvl.price inc
              lvl.totalQuantity lvl.orders).orders.isEmpty = true by simp [he])]
          have hrec := ih (fillLoop isBuy lvl.price inc lvl.totalQuantity
            lvl.orders).incoming
          rw [f1, f3, f4] at hrec
          rw [hrec]
        · rw [if_neg (show ¬ (List.map (fun o => (o.id, o.remaining))
              (fillLoop isBuy lvl.price inc lvl.totalQuantity lvl.orders).orders).isEmpty
                = true by simp [List.isEmpty_iff, he]),
            if_neg (show ¬ (fillLoop isBuy lvl.price inc
              lvl.totalQuantity lvl.orders).orders.isEmpty = true
              by simp [List.isEmpty_iff, he])]

/-- C1: for every book state and every incoming order, `OrderBook::match`
returns exactly the trade sequence of the reference price-time-priority
algorithm of spec section 4.4 (`refWalk` / `refFIFO` over the abstracted
book): resting orders are consumed strictly best price first and FIFO within
a level, a limit order stops at the first non-crossing opposing level, and
every trade's price is the resting level's price. -/
theorem matchOrder_trades_eq_spec (b : OrderBook) (inc : Order) :
    (b.matchOrder inc).2.2.trades = refTrades b inc := by
  cases hside : inc.side
  case Buy =>
    simp only [OrderBook.matchOrder, refTrades, hside]
    exact (matchLoop_ref true inc b.asks).symm
  case Sell =>
    simp only [OrderBook.matchOrder, refTrades, hside]
    exact (matchLoop_ref false inc b.bids).symm

/-! ### Claim C10: the pool engine refines the earlier heap engine -/

theorem applyOp_sim (e : MatchingEngine) (h : HeapEngine) (op : Op)
    (hb : e.book = h.book) (ht : e.tradeCount = h.tradeCount)
    (ho : e.orderCount = h.orderCount)
    (hfree : op.needsSlot = true → e.freeSlots ≠ 0) :
    (match (e.applyOp op).1 with
      | Except.ok ts => ts
      | Except.error _ => []) = (h.applyOp op).1 ∧
    (e.applyOp op).2.book = (h.applyOp op).2.book ∧
    (e.applyOp op).2.tradeCount = (h.applyOp op).2.tradeCount ∧
    (e.applyOp op).2.orderCount = (h.applyOp op).2.orderCount := by
  cases op with
  | limit id side price qty =>
    have hf : e.freeSlots ≠ 0 := hfree rfl
    simp only [MatchingEngine.applyOp, HeapEngine.applyOp, MatchingEngine.submitLimit,
      HeapEngine.submitLimit, if_neg hf, hb]
    by_cases hfill :
        (h.book.matchOrder ⟨id, side, OrderType.Limit, price, qty, qty⟩).1.isFilled
    · rw [if_pos hfill, if_pos hfill]
      refine ⟨?_, ?_, ?_, ?_⟩ <;> (try rw [ht]) <;> (try rw [ho]) <;> trivial
    · rw [if_neg hfill, if_neg hfill]
      refine ⟨?_, ?_, ?_, ?_⟩ <;> (try rw [ht]) <;> (try rw [ho]) <;> trivial
  | market id side qty =>
    have hf : e.freeSlots ≠ 0 := hfree rfl
    simp only [MatchingEngine.applyOp, HeapEngine.applyOp, MatchingEngine.submitMarket,
      HeapEngine.submitMarket, if_neg hf, hb]
    refine ⟨?_, ?_, ?_, ?_⟩ <;> (try rw [ht]) <;> (try rw [ho]) <;> trivial
  | cancel id =>
    simp only [MatchingEngine.applyOp, HeapEngine.applyOp, MatchingEngine.cancel,
      HeapEngine.cancel, hb]
    refine ⟨?_, ?_, ?_, ?_⟩ <;> (try rw [ht]) <;> (try rw [ho]) <;> trivial

theorem run_sim (ops : List Op) :
    ∀ (e : MatchingEngine) (h : HeapEngine),
      e.book = h.book → e.tradeCount = h.tradeCount → e.orderCount = h.orderCount →
      noExhaust e ops = true →
      tracesP e ops = tracesH h ops ∧
      (ops.foldl (fun e op => (e.applyOp op).2) e).book =
        (ops.foldl (fun h op => (h.applyOp op).2) h).book ∧
      (ops.foldl (fun e op => (e.applyOp op).2) e).tradeCount =
        (ops.foldl (fun h op => (h.applyOp op).2) h).tradeCount ∧
      (ops.foldl (fun e op => (e.applyOp op).2) e).orderCount =
        (ops.foldl (fun h op => (h.applyOp op).2) h).orderCount := by
  induction ops with
  | nil =>
    intro e h hb ht ho _
    exact ⟨rfl, hb, ht, ho⟩
  | cons op rest ih =>
    intro e h hb ht ho hne
    simp only [noExhaust, Bool.and_eq_true, Bool.or_eq_true, Bool.not_eq_true',
      ne_eq, bne_iff_ne] at hne
    obtain ⟨h1, h2⟩ := hne
    have hfree : op.needsSlot = true → e.freeSlots ≠ 0 := by
      intro hns
      rcases h1 with h1 | h1
      · rw [hns] at h1
        exact absurd h1 (by simp)
      · exact h1
    obtain ⟨s1, s2, s3, s4⟩ := applyOp_sim e h op hb ht ho hfree
    have hrest := ih (e.applyOp op).2 (h.applyOp op).2 s2 s3 s4 (by
      simpa [noExhaust] using h2)
    refine ⟨?_, hrest.2.1, hrest.2.2.1, hrest.2.2.2⟩
    simp only [tracesP, tracesH, List.foldl_cons]
    rw [s1, hrest.1]

/-- C10: for every sequence of submitLimit, submitMarket and cancel calls
during which the pool is never exhausted, the pool-based engine and the
earlier heap-allocating engine return identical per-operation trade
sequences and identical observable state: bestBid, bestAsk, spread,
orderCount, and the totalTrades / totalOrders counters (timestamps are not
modelled; spec section 9 makes them observational only). -/
theorem pool_engine_refines_heap (ops : List Op)
    (hne : noExhaust (MatchingEngine.init 2000000) ops = true) :
    tracesP (MatchingEngine.init 2000000) ops = tracesH HeapEngine.init ops ∧
    (run ops).book.bestBid = (heapRun ops).book.bestBid ∧
    (run ops).book.bestAsk = (heapRun ops).book.bestAsk ∧
    (run ops).book.spread = (heapRun ops).book.spread ∧
    (run ops).book.orderCount = (heapRun ops).book.orderCount ∧
    (run ops).totalTrades = (heapRun ops).tradeCount ∧
    (run ops).totalOrders = (heapRun ops).orderCount := by
  obtain ⟨s1, s2, s3, s4⟩ :=
    run_sim ops (MatchingEngine.init 2000000) HeapEngine.init rfl rfl rfl hne
  exact ⟨s1, congrArg OrderBook.bestBid s2, congrArg OrderBook.bestAsk s2,
    congrArg OrderBook.spread s2, congrArg OrderBook.orderCount s2, s3, s4⟩

/-- Witness for C10 at a concrete operation sequence exercising limits,
a market order and a cancellation. -/
theorem pool_engine_refines_heap_witness :
    noExhaust (MatchingEngine.init 2000000)
      [Op.limit 1 Side.Sell 10000 50, Op.limit 2 Side.Sell 10100 50,
        Op.market 3 Side.Buy 75, Op.limit 4 Side.Buy 9900 10, Op.cancel 4] = true ∧
    tracesP (MatchingEngine.init 2000000)
      [Op.limit 1 Side.Sell 10000 50, Op.limit 2 Side.Sell 10100 50,
        Op.market 3 Side.Buy 75, Op.limit 4 Side.Buy 9900 10, Op.cancel 4] =
      tracesH HeapEngine.init
        [Op.limit 1 Side.Sell 10000 50, Op.limit 2 Side.Sell 10100 50,
          Op.market 3 Side.Buy 75, Op.limit 4 Side.Buy 9900 10, Op.cancel 4] :=
  ⟨by decide,
    (pool_engine_refines_heap
      [Op.limit 1 Side.Sell 10000 50, Op.limit 2 Side.Sell 10100 50,
        Op.market 3 Side.Buy 75, Op.limit 4 Side.Buy 9900 10, Op.cancel 4]
      (by decide)).1⟩

/-! ### Lookup map lemmas -/

theorem lookupFind_mem (id : Nat) (l : Lookup) (v : Side × Int)
    (h : lookupFind id l = some v) : (id, v) ∈ l := by
  induction l with
  | nil => simp [lookupFind] at h
  | cons e rest ih =>
    simp only [lookupFind] at h
    by_cases he : e.1 = id
    · rw [if_pos he] at h
      simp only [Option.some_inj] at h
      subst h
      have : (id, e.2) = e := by rw [← he]
      rw [this]
      exact List.mem_cons_self _ _
    · rw [if_neg he] at h
      exact List.mem_cons_of_mem _ (ih h)

theorem lookupFind_isSome_of_mem (id : Nat) (l : Lookup) (v : Side × Int)
    (h : (id, v) ∈ l) : lookupFind id l ≠ none := by
  induction l with
  | nil => simp at h
  | cons e rest ih =>
    simp only [lookupFind]
    by_cases he : e.1 = id
    · rw [if_pos he]
      exact fun hc => Option.noConfusion hc
    · rw [if_neg he]
      rcases List.mem_cons.mp h with rfl | hr
      · exact absurd rfl he
      · exact ih hr

theorem lookup_unique (l : Lookup) (hnd : (l.map Prod.fst).Nodup) (k : Nat)
    (v1 v2 : Side × Int) (h1 : (k, v1) ∈ l) (h2 : (k, v2) ∈ l) : v1 = v2 := by
  induction l with
  | nil => simp at h1
  | cons e rest ih =>
    simp only [List.map_cons, List.nodup_cons] at hnd
    rcases List.mem_cons.mp h1 with he1 | h1r
    · rcases List.mem_cons.mp h2 with he2 | h2r
      · rw [← he1] at he2
        exact (Prod.mk.injEq _ _ _ _ |>.mp he2.symm).2
      · exfalso
        apply hnd.1
        have he : e.1 = k := by rw [← he1]
        rw [he]
        exact List.mem_map_of_mem Prod.fst h2r
    · rcases List.mem_cons.mp h2 with he2 | h2r
      · exfalso
        apply hnd.1
        have he : e.1 = k := by rw [← he2]
        rw [he]
        exact List.mem_map_of_mem Prod.fst h1r
      · exact ih hnd.2 h1r h2r

theorem lookupFind_lookupAssign_self (id : Nat) (v : Side × Int) (l : Lookup) :
    lookupFind id (lookupAssign id v l) = some v := by
  induction l with
  | nil => simp [lookupAssign, lookupFind]
  | cons e rest ih =>
    simp only [lookupAssign]
    by_cases he : e.1 = id
    · rw [if_pos he]
      simp [lookupFind]
    · rw [if_neg he]
      simp only [lookupFind]
      rw [if_neg he]
      exact ih

theorem lookupErase_lookupAssign (id : Nat) (v : Side × Int) (l : Lookup)
    (h : id ∉ l.map Prod.fst) :
    lookupErase id (lookupAssign id v l) = l := by
  induction l with
  | nil => simp [lookupAssign, lookupErase]
  | cons e rest ih =>
    simp only [List.map_cons, List.mem_cons, not_or] at h
    simp only [lookupAssign, lookupErase]
    rw [if_neg (fun he => h.1 he.symm), lookupErase]
    rw [if_neg (fun he => h.1 he.symm)]
    rw [ih h.2]

/-! ### Round-trip lemmas for submit-then-cancel -/

theorem removeById_append_last (id : Nat) (l : List Order) (o : Order)
    (hl : ∀ x ∈ l, x.id ≠ id) (ho : o.id = id) :
    removeById id (l ++ [o]) = (some o, l) := by
  induction l with
  | nil => simp [removeById, ho]
  | cons x rest ih =>
    simp only [List.cons_append, removeById]
    rw [if_neg (hl x (List.mem_cons_self _ _)), List.append_eq,
      ih (fun y hy => hl y (List.mem_cons_of_mem _ hy))]

theorem levelRoundTrip (lvl : PriceLevel) (o : Order)
    (hne : lvl.orders ≠ []) (htq : lvl.totalQuantity < U32)
    (hid : ∀ x ∈ lvl.orders, x.id ≠ o.id) :
    (PriceLevel.addOrder lvl o).removeOrder o.id = lvl := by
  have horders : (PriceLevel.addOrder lvl o).orders = lvl.orders ++ [o] := rfl
  have hrb := removeById_append_last o.id lvl.orders o hid rfl
  rw [PriceLevel.removeOrder, horders, hrb]
  show ({ price := lvl.price
          orders := lvl.orders
          totalQuantity := u32sub (u32add lvl.totalQuantity o.remaining) o.remaining }
      : PriceLevel) = lvl
  rw [u32_add_sub_cancel _ _ htq]

theorem cancel_addToBids (o : Order) (ls : List PriceLevel)
    (hinv : ∀ lvl ∈ ls, LevelInv Side.Buy lvl)
    (hid : ∀ lvl ∈ ls, ∀ x ∈ lvl.orders, x.id ≠ o.id) :
    cancelInLevels o.price o.id (addToBids o ls) = ls := by
  induction ls with
  | nil =>
    simp [addToBids, cancelInLevels, PriceLevel.addOrder, PriceLevel.removeOrder,
      removeById, PriceLevel.isEmptyLevel]
  | cons lvl rest ih =>
    simp only [addToBids]
    by_cases h1 : lvl.price = o.price
    · rw [if_pos h1]
      simp only [cancelInLevels]
      rw [if_pos (show (PriceLevel.addOrder lvl o).price = o.price from h1)]
      obtain ⟨hne, htq, hmem⟩ := hinv lvl (List.mem_cons_self _ _)
      have htqlt : lvl.totalQuantity < U32 := by
        rw [htq]
        exact Nat.mod_lt _ (by norm_num [U32])
      rw [levelRoundTrip lvl o hne htqlt (hid lvl (List.mem_cons_self _ _))]
      rw [if_neg (by simpa [PriceLevel.isEmptyLevel, List.isEmpty_iff] using hne)]
    · rw [if_neg h1]
      by_cases h2 : lvl.price < o.price
      · rw [if_pos h2]
        simp only [cancelInLevels]
        rw [if_pos (show (PriceLevel.addOrder ⟨o.price, [], 0⟩ o).price = o.price
          from rfl)]
        simp [PriceLevel.addOrder, PriceLevel.removeOrder, removeById,
          PriceLevel.isEmptyLevel]
      · rw [if_neg h2]
        simp only [cancelInLevels]
        rw [if_neg h1]
        rw [ih (fun l2 hl2 => hinv l2 (List.mem_cons_of_mem _ hl2))
          (fun l2 hl2 => hid l2 (List.mem_cons_of_mem _ hl2))]

theorem cancel_addToAsks (o : Order) (ls : List PriceLevel)
    (hinv : ∀ lvl ∈ ls, LevelInv Side.Sell lvl)
    (hid : ∀ lvl ∈ ls, ∀ x ∈ lvl.orders, x.id ≠ o.id) :
    cancelInLevels o.price o.id (addToAsks o ls) = ls := by
  induction ls with
  | nil =>
    simp [addToAsks, cancelInLevels, PriceLevel.addOrder, PriceLevel.removeOrder,
      removeById, PriceLevel.isEmptyLevel]
  | cons lvl rest ih =>
    simp only [addToAsks]
    by_cases h1 : lvl.price = o.price
    · rw [if_pos h1]
      simp only [cancelInLevels]
      rw [if_pos (show (PriceLevel.addOrder lvl o).price = o.price from h1)]
      obtain ⟨hne, htq, hmem⟩ := hinv lvl (List.mem_cons_self _ _)
      have htqlt : lvl.totalQuantity < U32 := by
        rw [htq]
        exact Nat.mod_lt _ (by norm_num [U32])
      rw [levelRoundTrip lvl o hne htqlt (hid lvl (List.mem_cons_self _ _))]
      rw [if_neg (by simpa [PriceLevel.isEmptyLevel, List.isEmpty_iff] using hne)]
    · rw [if_neg h1]
      by_cases h2 : o.price < lvl.price
      · rw [if_pos h2]
        simp only [cancelInLevels]
        rw [if_pos (show (PriceLevel.addOrder ⟨o.price, [], 0⟩ o).price = o.price
          from rfl)]
        simp [PriceLevel.addOrder, PriceLevel.removeOrder, removeById,
          PriceLevel.isEmptyLevel]
      · rw [if_neg h2]
        simp only [cancelInLevels]
        rw [if_neg h1]
        rw [ih (fun l2 hl2 => hinv l2 (List.mem_cons_of_mem _ hl2))
          (fun l2 hl2 => hid l2 (List.mem_cons_of_mem _ hl2))]

theorem matchOrder_noTrades (b : OrderBook) (inc : Order) (hb : bookInv b)
    (ht : (b.matchOrder inc).2.2.trades = []) :
    b.matchOrder inc = (inc, b, ⟨[], []⟩) := by
  obtain ⟨hb1, hb2, hb3, hb4, hb5⟩ := hb
  cases hside : inc.side
  case Buy =>
    simp only [OrderBook.matchOrder, hside] at ht ⊢
    rw [matchLoop_noTrades true Side.Sell inc b.asks hb4 ht]
    rfl
  case Sell =>
    simp only [OrderBook.matchOrder, hside] at ht ⊢
    rw [matchLoop_noTrades false Side.Buy inc b.bids hb3 ht]
    rfl

theorem mem_restingOrders_bids (b : OrderBook) (lvl : PriceLevel) (x : Order)
    (hl : lvl ∈ b.bids) (hx : x ∈ lvl.orders) : x ∈ restingOrders b :=
  List.mem_flatten.mpr
    ⟨lvl.orders, List.mem_map_of_mem _ (List.mem_append_left _ hl), hx⟩

theorem mem_restingOrders_asks (b : OrderBook) (lvl : PriceLevel) (x : Order)
    (hl : lvl ∈ b.asks) (hx : x ∈ lvl.orders) : x ∈ restingOrders b :=
  List.mem_flatten.mpr
    ⟨lvl.orders, List.mem_map_of_mem _ (List.mem_append_right _ hl), hx⟩

theorem restingOrders_mem (b : OrderBook) (x : Order) (h : x ∈ restingOrders b) :
    ∃ lvl, (lvl ∈ b.bids ∨ lvl ∈ b.asks) ∧ x ∈ lvl.orders := by
  obtain ⟨s, hs, hx⟩ := List.mem_flatten.mp h
  obtain ⟨lvl, hlvl, rfl⟩ := List.mem_map.mp hs
  exact ⟨lvl, List.mem_append.mp hlvl, hx⟩

/-! ### Claim C9: submit-then-cancel round trip -/

/-- C9 counterexample: a crossing submitLimit that partially fills and then
rests is cancellable, but cancelling it does not restore the pre-submission
book: the consumed resting liquidity is gone. -/
theorem submit_cancel_not_identity :
    ((run [Op.limit 1 Side.Sell 10000 50, Op.limit 2 Side.Buy 10000 100]).cancel 2).1
      = true ∧
    (run [Op.limit 1 Side.Sell 10000 50, Op.limit 2 Side.Buy 10000 100,
      Op.cancel 2]).book ≠ (run [Op.limit 1 Side.Sell 10000 50]).book :=
  ⟨rfl, by decide⟩

/-- C9 amended: for every well-formed book state, a successful submitLimit
that produces no trades (a non-crossing submission, with a fresh id and
positive quantity) followed by a cancel of that id restores the book exactly
to the pre-submission state (counters and pool are excepted, as the claim
allows). -/
theorem submit_cancel_roundtrip (e : MatchingEngine) (id : Nat) (side : Side)
    (price : Int) (qty : Nat)
    (hbinv : bookInv e.book) (hlinv : lookupInv e.book)
    (hfree : e.freeSlots ≠ 0) (hqty : qty ≠ 0)
    (hid : id ∉ (restingOrders e.book).map Order.id)
    (hnt : (e.submitLimit id side price qty).1 = Except.ok []) :
    ((e.submitLimit id side price qty).2.cancel id).1 = true ∧
    ((e.submitLimit id side price qty).2.cancel id).2.book = e.book := by
  have hknot : id ∉ e.book.orderLookup.map Prod.fst := by
    intro hk
    obtain ⟨en, hen, heq⟩ := List.mem_map.mp hk
    obtain ⟨o, ho, ho1, _, _⟩ := hlinv.2.2.1 en hen
    exact hid (List.mem_map.mpr ⟨o, ho, by rw [ho1, heq]⟩)
  simp only [MatchingEngine.submitLimit, if_neg hfree] at hnt ⊢
  by_cases hfill :
      (e.book.matchOrder ⟨id, side, OrderType.Limit, price, qty, qty⟩).1.isFilled
  · exfalso
    rw [if_pos hfill] at hnt
    have htr : (e.book.matchOrder
        ⟨id, side, OrderType.Limit, price, qty, qty⟩).2.2.trades = [] := by
      simpa using hnt
    have hmz := matchOrder_noTrades e.book _ hbinv htr
    rw [hmz, isFilled_true_iff] at hfill
    exact hqty hfill
  · rw [if_neg hfill] at hnt ⊢
    have htr : (e.book.matchOrder
        ⟨id, side, OrderType.Limit, price, qty, qty⟩).2.2.trades = [] := by
      simpa using hnt
    have hmz := matchOrder_noTrades e.book _ hbinv htr
    rw [hmz]
    simp only [MatchingEngine.cancel]
    cases side with
    | Buy =>
      have hidl : ∀ lvl ∈ e.book.bids, ∀ x ∈ lvl.orders,
          x.id ≠ (⟨id, Side.Buy, OrderType.Limit, price, qty, qty⟩ : Order).id := by
        intro lvl hlvl x hx heq
        exact hid (List.mem_map.mpr ⟨x, mem_restingOrders_bids e.book lvl x hlvl hx, heq⟩)
      have hbids : cancelInLevels price id
          (addToBids ⟨id, Side.Buy, OrderType.Limit, price, qty, qty⟩ e.book.bids) =
            e.book.bids :=
        cancel_addToBids _ _ hbinv.2.2.1 hidl
      have hlk : lookupErase id
          (lookupAssign id (Side.Buy, price) e.book.orderLookup) = e.book.orderLookup :=
        lookupErase_lookupAssign id _ _ hknot
      simp only [OrderBook.addOrder, OrderBook.cancelOrder]
      rw [show lookupFind id (lookupAssign id (Side.Buy, price) e.book.orderLookup) =
          some (Side.Buy, price) from lookupFind_lookupAssign_self id _ _]
      refine ⟨rfl, ?_⟩
      show ({ bids := cancelInLevels price id
                (addToBids ⟨id, Side.Buy, OrderType.Limit, price, qty, qty⟩ e.book.bids)
              asks := e.book.asks
              orderLookup := lookupErase id
                (lookupAssign id (Side.Buy, price) e.book.orderLookup) } : OrderBook)
          = e.book
      rw [hbids, hlk]
    | Sell =>
      have hidl : ∀ lvl ∈ e.book.asks, ∀ x ∈ lvl.orders,
          x.id ≠ (⟨id, Side.Sell, OrderType.Limit, price, qty, qty⟩ : Order).id := by
        intro lvl hlvl x hx heq
        exact hid (List.mem_map.mpr ⟨x, mem_restingOrders_asks e.book lvl x hlvl hx, heq⟩)
      have hasks : cancelInLevels price id
          (addToAsks ⟨id, Side.Sell, OrderType.Limit, price, qty, qty⟩ e.book.asks) =
            e.book.asks :=
        cancel_addToAsks _ _ hbinv.2.2.2.1 hidl
      have hlk : lookupErase id
          (lookupAssign id (Side.Sell, price) e.book.orderLookup) = e.book.orderLookup :=
        lookupErase_lookupAssign id _ _ hknot
      simp only [OrderBook.addOrder, OrderBook.cancelOrder]
      rw [show lookupFind id (lookupAssign id (Side.Sell, price) e.book.orderLookup) =
          some (Side.Sell, price) from lookupFind_lookupAssign_self id _ _]
      refine ⟨rfl, ?_⟩
      show ({ bids := e.book.bids
              asks := cancelInLevels price id
                (addToAsks ⟨id, Side.Sell, OrderType.Limit, price, qty, qty⟩ e.book.asks)
              orderLookup := lookupErase id
                (lookupAssign id (Side.Sell, price) e.book.orderLookup) } : OrderBook)
          = e.book
      rw [hasks, hlk]

/-- Witness for the amended C9 at a concrete non-crossing submission. -/
theorem submit_cancel_roundtrip_witness :
    bookInv (run [Op.limit 1 Side.Sell 10500 30]).book ∧
    lookupInv (run [Op.limit 1 Side.Sell 10500 30]).book ∧
    (((run [Op.limit 1 Side.Sell 10500 30]).submitLimit 2 Side.Buy 10000 60).2.cancel
      2).2.book = (run [Op.limit 1 Side.Sell 10500 30]).book :=
  ⟨by decide, by decide,
    (submit_cancel_roundtrip (run [Op.limit 1 Side.Sell 10500 30]) 2 Side.Buy 10000 60
      (by decide) (by decide) (by decide) (by decide) (by decide) rfl).2⟩

/-! ### Claim C7: cancellation semantics -/

theorem removeOrder_ids (lvl : PriceLevel) (id : Nat) :
    (lvl.removeOrder id).orders.map Order.id = (lvl.orders.map Order.id).erase id := by
  have hids := removeById_ids id lvl.orders
  rw [PriceLevel.removeOrder]
  rcases hro : removeById id lvl.orders with ⟨f, rest⟩
  rw [hro] at hids
  cases f with
  | none =>
    rcases removeById_spec id lvl.orders with ⟨hn, _⟩ | ⟨o2, r2, hs, _⟩
    · rw [hro, Prod.mk.injEq] at hn
      rw [hn.2] at hids
      exact hids
    · rw [hro, Prod.mk.injEq] at hs
      exact absurd hs.1 (by simp)
  | some o =>
    exact hids

theorem pairwise_prices_nodup (R : Int → Int → Prop) (hR : ∀ a b, R a b → a ≠ b)
    (ls : List PriceLevel) (hs : List.Pairwise (fun a b => R a.price b.price) ls) :
    (ls.map PriceLevel.price).Nodup :=
  List.pairwise_map.mpr (hs.imp (fun h => hR _ _ h))

theorem cancelInLevels_ids (p : Int) (id : Nat) (ls : List PriceLevel)
    (hnd : (ls.map PriceLevel.price).Nodup)
    (honly : ∀ lvl ∈ ls, (∃ o ∈ lvl.orders, o.id = id) → lvl.price = p)
    (hin : ∃ lvl ∈ ls, lvl.price = p ∧ ∃ o ∈ lvl.orders, o.id = id) :
    (((cancelInLevels p id ls).map PriceLevel.orders).flatten).map Order.id =
      ((((ls.map PriceLevel.orders).flatten).map Order.id)).erase id := by
  induction ls with
  | nil =>
    obtain ⟨lvl, hl, _⟩ := hin
    simp at hl
  | cons lvl rest ih =>
    simp only [List.map_cons, List.nodup_cons] at hnd
    by_cases h1 : lvl.price = p
    · have hidin : ∃ o ∈ lvl.orders, o.id = id := by
        obtain ⟨lvl2, hl2, hp2, o, ho, hoid⟩ := hin
        rcases List.mem_cons.mp hl2 with rfl | hl2r
        · exact ⟨o, ho, hoid⟩
        · exfalso
          apply hnd.1
          rw [h1, ← hp2]
          exact List.mem_map_of_mem PriceLevel.price hl2r
      have hmemids : id ∈ lvl.orders.map Order.id := by
        obtain ⟨o, ho, hoid⟩ := hidin
        exact List.mem_map.mpr ⟨o, ho, hoid⟩
      simp only [cancelInLevels]
      rw [if_pos h1]
      have hrem := removeOrder_ids lvl id
      by_cases he : (lvl.removeOrder id).isEmptyLevel
      · rw [if_pos he]
        have hemp : (lvl.removeOrder id).orders = [] := by
          simpa [PriceLevel.isEmptyLevel, List.isEmpty_iff] using he
        rw [hemp] at hrem
        simp only [List.map_cons, List.flatten_cons, List.map_append]
        rw [List.erase_append_left _ hmemids, ← hrem]
        simp
      · rw [if_neg he]
        simp only [List.map_cons, List.flatten_cons, List.map_append]
        rw [List.erase_append_left _ hmemids, hrem]
    · have hnotin : id ∉ lvl.orders.map Order.id := by
        intro hmem
        obtain ⟨o, ho, hoid⟩ := List.mem_map.mp hmem
        exact h1 (honly lvl (List.mem_cons_self _ _) ⟨o, ho, hoid⟩)
      simp only [cancelInLevels]
      rw [if_neg h1]
      simp only [List.map_cons, List.flatten_cons, List.map_append]
      rw [List.erase_append_right _ hnotin]
      congr 1
      refine ih hnd.2 (fun l2 h2 => honly l2 (List.mem_cons_of_mem _ h2)) ?_
      obtain ⟨lvl2, hl2, hp2, hex⟩ := hin
      rcases List.mem_cons.mp hl2 with rfl | hl2r
      · exact absurd hp2 h1
      · exact ⟨lvl2, hl2r, hp2, hex⟩

/-- C7: `cancelOrder(id)` returns true iff id is currently the id of a
resting order; on the true branch it removes exactly that order (the list of
resting ids loses exactly id), clears the id binding, and no empty price
level persists; on the false branch (unknown, already-cancelled or
already-filled id) nothing in the book state changes. -/
theorem cancelOrder_spec (b : OrderBook) (id : Nat)
    (hbinv : bookInv b) (hlinv : lookupInv b) :
    ((b.cancelOrder id).1 = true ↔ id ∈ (restingOrders b).map Order.id) ∧
    ((b.cancelOrder id).1 = false → (b.cancelOrder id).2 = b) ∧
    ((b.cancelOrder id).1 = true →
      (restingOrders (b.cancelOrder id).2).map Order.id =
        ((restingOrders b).map Order.id).erase id ∧
      (b.cancelOrder id).2.orderLookup = lookupErase id b.orderLookup ∧
      ∀ lvl ∈ (b.cancelOrder id).2.bids ++ (b.cancelOrder id).2.asks,
        lvl.orders ≠ []) := by
  have hBI := cancelOrder_bookInv b id hbinv
  have hNE : ∀ lvl ∈ (b.cancelOrder id).2.bids ++ (b.cancelOrder id).2.asks,
      lvl.orders ≠ [] := by
    intro lvl hl
    rcases List.mem_append.mp hl with h | h
    · exact (hBI.2.2.1 lvl h).1
    · exact (hBI.2.2.2.1 lvl h).1
  obtain ⟨hb1, hb2, hb3, hb4, hb5⟩ := hbinv
  obtain ⟨hk1, hk2, hk3, hk4⟩ := hlinv
  rcases hlf : lookupFind id b.orderLookup with _ | ⟨sside, sprice⟩
  · have hres : b.cancelOrder id = (false, b) := by
      simp only [OrderBook.cancelOrder, hlf]
    rw [hres] at hNE ⊢
    refine ⟨⟨fun h => absurd h (by simp), fun hmem => ?_⟩, fun _ => rfl,
      fun h => absurd h (by simp)⟩
    exfalso
    obtain ⟨o, ho, hoid⟩ := List.mem_map.mp hmem
    have hb := hk4 o ho
    rw [hoid] at hb
    exact lookupFind_isSome_of_mem id b.orderLookup (o.side, o.price) hb hlf
  · have hbind : (id, sside, sprice) ∈ b.orderLookup := lookupFind_mem id _ _ hlf
    obtain ⟨o, ho, hoid0, hoside0, hoprice0⟩ := hk3 (id, sside, sprice) hbind
    have hoid : o.id = id := hoid0
    have hoside : o.side = sside := hoside0
    have hoprice : o.price = sprice := hoprice0
    have hmem : id ∈ (restingOrders b).map Order.id :=
      List.mem_map.mpr ⟨o, ho, hoid⟩
    cases sside with
    | Buy =>
      have hobids : ∃ lvl ∈ b.bids, o ∈ lvl.orders := by
        obtain ⟨lvl, hside2, hol⟩ := restingOrders_mem b o ho
        rcases hside2 with h | h
        · exact ⟨lvl, h, hol⟩
        · exfalso
          have hsell := ((hb4 lvl h).2.2 o hol).1
          rw [hoside] at hsell
          exact Side.noConfusion hsell
      have hres : b.cancelOrder id =
          (true, { bids := cancelInLevels sprice id b.bids
                   asks := b.asks
                   orderLookup := lookupErase id b.orderLookup }) := by
        simp only [OrderBook.cancelOrder, hlf]
      rw [hres] at hNE ⊢
      refine ⟨⟨fun _ => hmem, fun _ => rfl⟩, fun h => absurd h (by simp),
        fun _ => ⟨?_, rfl, hNE⟩⟩
      have honly : ∀ lvl ∈ b.bids, (∃ x ∈ lvl.orders, x.id = id) →
          lvl.price = sprice := by
        intro lvl hlvl hx
        obtain ⟨x, hxm, hxid⟩ := hx
        have hxb := hk4 x (mem_restingOrders_bids b lvl x hlvl hxm)
        rw [hxid] at hxb
        have huniq := lookup_unique b.orderLookup hk1 id (x.side, x.price)
          (Side.Buy, sprice) hxb hbind
        have hxp : x.price = sprice := congrArg Prod.snd huniq
        rw [← hxp]
        exact (((hb3 lvl hlvl).2.2 x hxm).2.2.1).symm
      have hnd := pairwise_prices_nodup _ (fun a b h => ne_of_gt h) b.bids hb1
      have hin : ∃ lvl ∈ b.bids, lvl.price = sprice ∧ ∃ x ∈ lvl.orders, x.id = id := by
        obtain ⟨lvl, hlvl, hol⟩ := hobids
        refine ⟨lvl, hlvl, ?_, o, hol, hoid⟩
        rw [← hoprice]
        exact (((hb3 lvl hlvl).2.2 o hol).2.2.1).symm
      have hmemBids : id ∈ ((b.bids.map PriceLevel.orders).flatten).map Order.id := by
        obtain ⟨lvl, hlvl, hol⟩ := hobids
        exact List.mem_map.mpr ⟨o,
          List.mem_flatten.mpr ⟨lvl.orders, List.mem_map_of_mem _ hlvl, hol⟩, hoid⟩
      simp only [restingOrders, List.map_append, List.flatten_append]
      rw [cancelInLevels_ids sprice id b.bids hnd honly hin,
        List.erase_append_left _ hmemBids]
    | Sell =>
      have hoasks : ∃ lvl ∈ b.asks, o ∈ lvl.orders := by
        obtain ⟨lvl, hside2, hol⟩ := restingOrders_mem b o ho
        rcases hside2 with h | h
        · exfalso
          have hbuy := ((hb3 lvl h).2.2 o hol).1
          rw [hoside] at hbuy
          exact Side.noConfusion hbuy
        · exact ⟨lvl, h, hol⟩
      have hres : b.cancelOrder id =
          (true, { bids := b.bids
                   asks := cancelInLevels sprice id b.asks
                   orderLookup := lookupErase id b.orderLookup }) := by
        simp only [OrderBook.cancelOrder, hlf]
      rw [hres] at hNE ⊢
      refine ⟨⟨fun _ => hmem, fun _ => rfl⟩, fun h => absurd h (by simp),
        fun _ => ⟨?_, rfl, hNE⟩⟩
      have honly : ∀ lvl ∈ b.asks, (∃ x ∈ lvl.orders, x.id = id) →
          lvl.price = sprice := by
        intro lvl hlvl hx
        obtain ⟨x, hxm, hxid⟩ := hx
        have hxb := hk4 x (mem_restingOrders_asks b lvl x hlvl hxm)
        rw [hxid] at hxb
        have huniq := lookup_unique b.orderLookup hk1 id (x.side, x.price)
          (Side.Sell, sprice) hxb hbind
        have hxp : x.price = sprice := congrArg Prod.snd huniq
        rw [← hxp]
        exact (((hb4 lvl hlvl).2.2 x hxm).2.2.1).symm
      have hnd := pairwise_prices_nodup _ (fun a b h => ne_of_lt h) b.asks hb2
      have hin : ∃ lvl ∈ b.asks, lvl.price = sprice ∧ ∃ x ∈ lvl.orders, x.id = id := by
        obtain ⟨lvl, hlvl, hol⟩ := hoasks
        refine ⟨lvl, hlvl, ?_, o, hol, hoid⟩
        rw [← hoprice]
        exact (((hb4 lvl hlvl).2.2 o hol).2.2.1).symm
      have hnotinBids : id ∉ ((b.bids.map PriceLevel.orders).flatten).map Order.id := by
        intro hmem2
        obtain ⟨x, hxf, hxid⟩ := List.mem_map.mp hmem2
        obtain ⟨s, hs, hxs⟩ := List.mem_flatten.mp hxf
        obtain ⟨lvl, hlvl, rfl⟩ := List.mem_map.mp hs
        have hxbuy := ((hb3 lvl hlvl).2.2 x hxs).1
        have hxb := hk4 x (mem_restingOrders_bids b lvl x hlvl hxs)
        rw [hxid] at hxb
        have huniq := lookup_unique b.orderLookup hk1 id (x.side, x.price)
          (Side.Sell, sprice) hxb hbind
        have hxside : x.side = Side.Sell := congrArg Prod.fst huniq
        rw [hxbuy] at hxside
        exact Side.noConfusion hxside
      simp only [restingOrders, List.map_append, List.flatten_append]
      rw [cancelInLevels_ids sprice id b.asks hnd honly hin,
        List.erase_append_right _ hnotinBids]

/-- Witness for C7 at a concrete one-order book. -/
theorem cancelOrder_spec_witness :
    bookInv (run [Op.limit 1 Side.Buy 100 50]).book ∧
    lookupInv (run [Op.limit 1 Side.Buy 100 50]).book ∧
    ((((run [Op.limit 1 Side.Buy 100 50]).book.cancelOrder 1).1 = true) ↔
      1 ∈ (restingOrders (run [Op.limit 1 Side.Buy 100 50]).book).map Order.id) :=
  ⟨by decide, by decide,
    (cancelOrder_spec (run [Op.limit 1 Side.Buy 100 50]).book 1
      (by decide) (by decide)).1⟩

end Engine
